import Mathlib

/-!
Shallow embedding of the Fynix expense-categorization engine
(`src/unnamed/part_003`) and proofs about it.

Strings are modelled as `List Char`; JavaScript `toLowerCase` is modelled
on the ASCII range (all string constants in the engine are ASCII) plus the
one length-changing Unicode special case — U+0130 lowercases to the two
characters `i` + U+0307 — and the JS whitespace class is modelled by the
six ASCII whitespace characters.
Rational numbers stand for JS numbers (all arithmetic in the engine is
exact on decimals).  Database and network effects are modelled by explicit
outcome parameters: a call either returns a value or fails with an error
code, and thrown errors are `Except.error`.
-/

namespace Fynix

/-- Character list of a string literal, the representation used throughout. -/
def chars (s : String) : List Char := s.data

/-- Single-character (ASCII) part of `String.prototype.toLowerCase`. -/
def jsToLower (c : Char) : Char :=
  if 65 ≤ c.toNat ∧ c.toNat ≤ 90 then Char.ofNat (c.toNat + 32) else c

/-- U+0130 (LATIN CAPITAL LETTER I WITH DOT ABOVE), the one code point
whose `toLowerCase` image is two UTF-16 units long. -/
def dottedI : Char := Char.ofNat 0x130

/-- Unicode full lowercase of one character, as a character list:
`toLowerCase` maps U+0130 to `i` + U+0307 (Unicode SpecialCasing) and
every other character to a single character (modelled on the ASCII
range). -/
def jsToLowerFull (c : Char) : List Char :=
  if c = dottedI then [Char.ofNat 0x69, Char.ofNat 0x307]
  else [jsToLower c]

/-- Model of `String.prototype.toLowerCase` on a whole string. -/
def jsLowerCase : List Char → List Char
  | [] => []
  | c :: cs => jsToLowerFull c ++ jsLowerCase cs

/-- Model of the JS regex class `\s` (ASCII part). -/
def isSpaceChar (c : Char) : Bool :=
  c == ' ' || c == '\t' || c == '\n' || c == '\r' ||
    c == Char.ofNat 11 || c == Char.ofNat 12

/-- The punctuation class `[\.,\-_/\\]` of `normalizeMerchantText`. -/
def isPunctChar (c : Char) : Bool :=
  c == '.' || c == ',' || c == '-' || c == '_' || c == '/' || c == '\\'

/-- Model of the JS regex class `\w` (`[A-Za-z0-9_]`), used by `\b`. -/
def isWordChar (c : Char) : Bool :=
  (decide (97 ≤ c.toNat) && decide (c.toNat ≤ 122)) ||
  (decide (65 ≤ c.toNat) && decide (c.toNat ≤ 90)) ||
  (decide (48 ≤ c.toNat) && decide (c.toNat ≤ 57)) ||
  c == '_'

/-- Remove trailing whitespace (the right half of `String.prototype.trim`). -/
def dropTrailingWs (l : List Char) : List Char :=
  ((l.reverse).dropWhile isSpaceChar).reverse

/-- Model of `String.prototype.trim`. -/
def trimWs (l : List Char) : List Char :=
  dropTrailingWs (l.dropWhile isSpaceChar)

/-- Source `sanitizePlainText`: trim, then `slice(0, maxLength)`.
(The `typeof value !== 'string'` guard is outside the model: inputs are
always strings here, with `null`/`undefined` rendered as `[]`.) -/
def sanitizePlainText (value : List Char) (maxLength : Nat) : List Char :=
  (trimWs value).take maxLength

/-- One pass of `.replace(/[\.,\-_/\\]+/g, ' ')`: a maximal run of
punctuation characters becomes a single space.  The flag records whether
the previous character was part of a punctuation run. -/
def collapsePunctAux : Bool → List Char → List Char
  | _, [] => []
  | prevPunct, c :: cs =>
    if isPunctChar c then
      (if prevPunct then [] else [' ']) ++ collapsePunctAux true cs
    else c :: collapsePunctAux false cs

def collapsePunct (l : List Char) : List Char := collapsePunctAux false l

/-- The corporate-suffix tokens of
`.replace(/\b(private|pvt|ltd|limited|india|inc|llp|co)\b/g, ' ')`. -/
def suffixTokens : List (List Char) :=
  [chars "private", chars "pvt", chars "ltd", chars "limited",
   chars "india", chars "inc", chars "llp", chars "co"]

/-- Replacement applied to one maximal `\w`-run: a run equal to a suffix
token becomes a single space (the regex can only match a whole maximal
word run, since `\b` needs a non-word boundary on both sides). -/
def flushRun (run : List Char) : List Char :=
  if run = [] then [] else if run ∈ suffixTokens then [' '] else run

/-- Worker for the suffix-token replacement; `acc` is the word run read
so far. -/
def stripTokensAux (acc : List Char) : List Char → List Char
  | [] => flushRun acc
  | c :: cs =>
    if isWordChar c then stripTokensAux (acc ++ [c]) cs
    else flushRun acc ++ c :: stripTokensAux [] cs

/-- Model of `.replace(/\b(private|pvt|ltd|limited|india|inc|llp|co)\b/g, ' ')`. -/
def stripSuffixTokens (l : List Char) : List Char := stripTokensAux [] l

/-- Continuation of `stripTokensAux` after a non-word separator (used to
state its unfolding equation run by run). -/
def stripTail : List Char → List Char
  | [] => []
  | d :: ds => d :: stripTokensAux [] ds

/-- Worker computing the maximal `\w`-runs of a string; `acc` is the word
run read so far. -/
def wordRunsAux (acc : List Char) : List Char → List (List Char)
  | [] => if acc = [] then [] else [acc]
  | c :: cs =>
    if isWordChar c then wordRunsAux (acc ++ [c]) cs
    else (if acc = [] then [] else [acc]) ++ wordRunsAux [] cs

/-- The maximal `\w`-runs of a string, in order — the only positions where
the suffix-token regex can match. -/
def wordRuns (l : List Char) : List (List Char) := wordRunsAux [] l

/-- Continuation of `wordRunsAux` after a non-word separator. -/
def wordRunsTail : List Char → List (List Char)
  | [] => []
  | _ :: ds => wordRunsAux [] ds

/-- No maximal word run of `l` is a corporate-suffix token, so the token
regex matches nowhere in `l`. -/
def noTokenRuns (l : List Char) : Prop :=
  ∀ r ∈ wordRuns l, r ∉ suffixTokens

/-- One pass of `.replace(/\s+/g, ' ')`, same shape as `collapsePunctAux`. -/
def collapseWsAux : Bool → List Char → List Char
  | _, [] => []
  | prevWs, c :: cs =>
    if isSpaceChar c then
      (if prevWs then [] else [' ']) ++ collapseWsAux true cs
    else c :: collapseWsAux false cs

def collapseWs (l : List Char) : List Char := collapseWsAux false l

/-- Source `normalizeMerchantText`. -/
def normalizeMerchantText (value : List Char) : List Char :=
  let normalized := jsLowerCase (sanitizePlainText value 200)
  if normalized = [] then []
  else trimWs (collapseWs (stripSuffixTokens (collapsePunct normalized)))

/-- True when `pat` is an initial segment of `l` (used for substring search). -/
def leadsWith : List Char → List Char → Bool
  | [], _ => true
  | _ :: _, [] => false
  | p :: ps, c :: cs => p == c && leadsWith ps cs

/-- Model of `String.prototype.includes`: `hasSub s pat` is true when `pat`
occurs contiguously in `s`. -/
def hasSub (s pat : List Char) : Bool :=
  s.tails.any fun t => leadsWith pat t

/-- Source `levenshteinDistance`, written as the recurrence that the
source's dynamic-programming matrix computes (unit-cost single-character
insert, delete, substitute; the `a === b` short-circuit returns the same
value as the recurrence). -/
def levenshteinDistance : List Char → List Char → Nat
  | [], b => b.length
  | a :: as, [] => (a :: as).length
  | a :: as, b :: bs =>
    if a = b then levenshteinDistance as bs
    else 1 + min (levenshteinDistance as (b :: bs))
      (min (levenshteinDistance (a :: as) bs) (levenshteinDistance as bs))
termination_by a b => a.length + b.length
decreasing_by all_goals simp only [List.length_cons]; omega

/-- Source `similarityScore`. -/
def similarityScore (a b : List Char) : ℚ :=
  if a = [] ∨ b = [] then 0
  else if hasSub a b || hasSub b a then 0.99
  else
    let distance : ℚ := levenshteinDistance a b
    let maxLength : ℚ := max a.length b.length
    if maxLength = 0 then 0 else 1 - distance / maxLength

/-- Source `EXPENSE_CATEGORIES`. -/
def EXPENSE_CATEGORIES : List (List Char) :=
  [chars "Food", chars "Dining", chars "Coffee", chars "Groceries",
   chars "Rent", chars "Home", chars "Utilities", chars "Bills",
   chars "Internet", chars "Mobile", chars "Transport", chars "Fuel",
   chars "Parking", chars "Travel", chars "Subscription", chars "Insurance",
   chars "Health", chars "Pharmacy", chars "Education", chars "Shopping",
   chars "Beauty", chars "Personal Care", chars "Fitness",
   chars "Entertainment", chars "Family", chars "Childcare", chars "Pets",
   chars "EMI", chars "Loan", chars "Tax", chars "Investment",
   chars "Charity", chars "Gifts", chars "Misc", chars "Uncategorized"]

/-- Source `normalizeCategory`: sanitize, then snap to the first
case-insensitive exact match in `EXPENSE_CATEGORIES`, else pass through. -/
def normalizeCategory (category : List Char) : List Char :=
  let normalized := sanitizePlainText category 60
  if normalized = [] then []
  else
    match EXPENSE_CATEGORIES.find? fun item =>
        item.map jsToLower == normalized.map jsToLower with
    | some exact => exact
    | none => normalized

/-- The result value returned by every tier of the engine. -/
structure CatResult where
  category : List Char
  confidence : ℚ
  reason : List Char
deriving DecidableEq

/-- One rule of the source's static keyword table. -/
structure KeywordRule where
  category : List Char
  keywords : List (List Char)
deriving DecidableEq

/-- Source rule table of `keywordCategoryInference`, in source order. -/
def keywordRules : List KeywordRule :=
  [⟨chars "Rent", [chars "rent", chars "house rent", chars "flat rent", chars "landlord", chars "lease"]⟩,
   ⟨chars "EMI", [chars "emi", chars "instalment", chars "installment", chars "monthly installment"]⟩,
   ⟨chars "Loan", [chars "loan", chars "repayment", chars "personal loan", chars "home loan", chars "car loan"]⟩,
   ⟨chars "Tax", [chars "tax", chars "gst", chars "income tax", chars "tds", chars "property tax"]⟩,
   ⟨chars "Investment", [chars "sip", chars "mutual fund", chars "stock", chars "demat", chars "investment"]⟩,
   ⟨chars "Insurance", [chars "insurance", chars "premium", chars "lic", chars "health cover"]⟩,
   ⟨chars "Utilities", [chars "electricity", chars "water bill", chars "gas bill", chars "utility"]⟩,
   ⟨chars "Internet", [chars "broadband", chars "internet", chars "wifi", chars "fiber", chars "jiofiber"]⟩,
   ⟨chars "Mobile", [chars "mobile recharge", chars "prepaid", chars "postpaid", chars "airtel", chars "jio", chars "vi"]⟩,
   ⟨chars "Bills", [chars "bill payment", chars "invoice payment", chars "due payment"]⟩,
   ⟨chars "Groceries", [chars "grocery", chars "supermarket", chars "bigbasket", chars "dmart", chars "blinkit", chars "zepto"]⟩,
   ⟨chars "Food", [chars "swiggy", chars "zomato", chars "food order", chars "meal", chars "lunch", chars "dinner"]⟩,
   ⟨chars "Dining", [chars "restaurant", chars "dine", chars "dining", chars "eatery", chars "cafe meal"]⟩,
   ⟨chars "Coffee", [chars "coffee", chars "starbucks", chars "costa", chars "barista"]⟩,
   ⟨chars "Transport", [chars "uber", chars "ola", chars "metro", chars "bus", chars "train", chars "taxi", chars "auto"]⟩,
   ⟨chars "Fuel", [chars "fuel", chars "petrol", chars "diesel", chars "cng", chars "gas station"]⟩,
   ⟨chars "Parking", [chars "parking", chars "toll", chars "fastag"]⟩,
   ⟨chars "Travel", [chars "flight", chars "hotel", chars "airbnb", chars "trip", chars "booking", chars "makemytrip", chars "goibibo"]⟩,
   ⟨chars "Subscription", [chars "netflix", chars "spotify", chars "prime", chars "subscription", chars "youtube", chars "hotstar"]⟩,
   ⟨chars "Health", [chars "hospital", chars "clinic", chars "medicine", chars "doctor", chars "health check"]⟩,
   ⟨chars "Pharmacy", [chars "pharmacy", chars "apollo", chars "medplus", chars "chemist", chars "drug store"]⟩,
   ⟨chars "Education", [chars "course", chars "tuition", chars "school fee", chars "college fee", chars "udemy", chars "coursera"]⟩,
   ⟨chars "Shopping", [chars "amazon", chars "flipkart", chars "myntra", chars "shopping", chars "purchase"]⟩,
   ⟨chars "Beauty", [chars "salon", chars "spa", chars "beauty", chars "grooming", chars "cosmetic"]⟩,
   ⟨chars "Personal Care", [chars "toiletries", chars "skincare", chars "haircare", chars "self care"]⟩,
   ⟨chars "Fitness", [chars "gym", chars "workout", chars "fitness", chars "yoga class"]⟩,
   ⟨chars "Entertainment", [chars "movie", chars "cinema", chars "game", chars "concert", chars "ott"]⟩,
   ⟨chars "Family", [chars "family", chars "parents", chars "household support"]⟩,
   ⟨chars "Childcare", [chars "childcare", chars "daycare", chars "baby", chars "kids class"]⟩,
   ⟨chars "Pets", [chars "pet", chars "dog food", chars "cat food", chars "veterinary", chars "vet"]⟩,
   ⟨chars "Charity", [chars "donation", chars "charity", chars "ngo", chars "fundraiser"]⟩,
   ⟨chars "Gifts", [chars "gift", chars "present", chars "birthday gift", chars "anniversary gift"]⟩,
   ⟨chars "Home", [chars "furniture", chars "appliance", chars "home decor", chars "household item"]⟩]

/-- Source `keywordCategoryInference`: first-match-wins over the rule
table on the lowercased `description merchant` text. -/
def keywordCategoryInference (description merchant : List Char) : Option CatResult :=
  let text := (description ++ [' '] ++ merchant).map jsToLower
  if text = [] then none
  else
    match keywordRules.find? fun rule =>
        rule.keywords.any fun keyword => hasSub text keyword with
    | some rule =>
      some ⟨rule.category, 0.82,
        chars "Matched keyword rule for " ++ rule.category ++ chars "."⟩
    | none => none

/-- A `merchantCategoryMap` row as the engine reads it. -/
structure DictEntry where
  id : Nat
  userId : Option (List Char)
  merchantKeyword : List Char
  normalizedKeyword : List Char
  category : List Char
  confidenceScore : ℚ
  source : List Char
  hitCount : Nat
  isActive : Bool
deriving DecidableEq

/-- The `bestMatch` accumulator of `findMerchantCategoryInference`. -/
structure BestMatch where
  id : Nat
  category : List Char
  confidence : ℚ
  weightedScore : ℚ
  source : List Char
deriving DecidableEq

/-- Outcome of the `merchantCategoryMap.findMany` call: either the rows
the query returned (already filtered/ordered/limited by the store), or a
thrown error with a Prisma error code. -/
inductive StoreOutcome where
  | rows (maps : List DictEntry)
  | fail (code : List Char)
deriving DecidableEq

/-- JS `mapItem.confidenceScore || 0.8`: `0` is falsy and falls back. -/
def entryConfidence (e : DictEntry) : ℚ :=
  if e.confidenceScore = 0 then 0.8 else e.confidenceScore

/-- JS `mapItem.source || 'seed'`. -/
def entrySource (e : DictEntry) : List Char :=
  if e.source = [] then chars "seed" else e.source

/-- JS `normalizeMerchantText(mapItem.normalizedKeyword || mapItem.merchantKeyword)`. -/
def entryNormalizedKeyword (mapItem : DictEntry) : List Char :=
  normalizeMerchantText
    (if mapItem.normalizedKeyword = [] then mapItem.merchantKeyword
     else mapItem.normalizedKeyword)

/-- JS `!bestMatch || weightedScore > bestMatch.weightedScore`. -/
def beatsBest (weightedScore : ℚ) : Option BestMatch → Bool
  | none => true
  | some bestMatch => decide (weightedScore > bestMatch.weightedScore)

/-- Inner loop body of `findMerchantCategoryInference` for one map row:
score every candidate against the row's normalized keyword and keep the
strictly best pair at or above `minScore`. -/
def considerEntry (minScore : ℚ) (candidates : List (List Char))
    (best : Option BestMatch) (mapItem : DictEntry) : Option BestMatch :=
  let normalizedKeyword := entryNormalizedKeyword mapItem
  if normalizedKeyword = [] then best
  else
    candidates.foldl
      (fun b candidateText =>
        let score := similarityScore candidateText normalizedKeyword
        let weightedScore := score * entryConfidence mapItem
        if weightedScore < minScore then b
        else if beatsBest weightedScore b then
          some ⟨mapItem.id,
            (if normalizeCategory mapItem.category = [] then chars "Uncategorized"
             else normalizeCategory mapItem.category),
            min 0.99 weightedScore, weightedScore, entrySource mapItem⟩
        else b)
      best

/-- Source `findMerchantCategoryInference`.  The `userId` argument only
feeds the store query (modelled by `store`); the best-effort hit-count
update (`.catch(() => null)`) has no effect on the returned value and is
not modelled.  A thrown `P2021` (table not provisioned) degrades to
no-match; any other thrown error propagates. -/
def findMerchantCategoryInference (userId : List Char)
    (merchant description : List Char) (minScore : ℚ)
    (store : StoreOutcome) : Except (List Char) (Option CatResult) :=
  let normalizedMerchant := normalizeMerchantText merchant
  let normalizedDescription := normalizeMerchantText description
  let candidates := [normalizedMerchant, normalizedDescription].filter
    fun c => !c.isEmpty
  if candidates = [] then .ok none
  else
    match store with
    | .fail code => if code = chars "P2021" then .ok none else .error code
    | .rows maps =>
      match maps.foldl (considerEntry minScore candidates) none with
      | none => .ok none
      | some bestMatch =>
        .ok (some ⟨bestMatch.category, bestMatch.confidence,
          chars "Matched merchant dictionary (" ++ bestMatch.source ++ chars ")."⟩)

/-- Payload of a local-adapter JSON response, after `response.json()`
succeeded; absent JSON fields are `[]`/`none`. -/
structure LocalPayload where
  category : List Char
  confidence : Option ℚ
  reason : List Char
deriving DecidableEq

/-- Behaviour of the local-adapter HTTP call: a transport error or abort
(anything the `try` catches), or a response with a status flag and a
parsed body (`none` body = `response.json()` rejected, giving `{}`). -/
inductive LocalOutcome where
  | netError
  | resp (ok : Bool) (payload : Option LocalPayload)

/-- JS `Number(x) || d` on an optional numeric field: missing (`NaN`) or
`0` falls back to `d`. -/
def numOr (x : Option ℚ) (d : ℚ) : ℚ :=
  match x with
  | none => d
  | some q => if q = 0 then d else q

/-- JS `sanitizePlainText(x, n) || d`. -/
def sanitizeOr (x : List Char) (n : Nat) (d : List Char) : List Char :=
  if sanitizePlainText x n = [] then d else sanitizePlainText x n

/-- Source `categorizeExpenseWithLocalModel`.  Every failure path returns
`none`; nothing escapes the function. -/
def categorizeExpenseWithLocalModel (localCategorizerUrl : List Char)
    (lo : LocalOutcome) : Option CatResult :=
  if localCategorizerUrl = [] then none
  else
    match lo with
    | .netError => none
    | .resp ok payload =>
      if !ok then none
      else
        match payload with
        | none => none
        | some p =>
          let category := normalizeCategory p.category
          if category = [] then none
          else some ⟨category, numOr p.confidence 0.7,
            sanitizeOr p.reason 120 (chars "Categorized via local model.")⟩

/-- The `choices[0].message.content` field of a remote response:
not a string (giving `{}`), a string `JSON.parse` rejects (the thrown
error is caught by the outer `try`), or parsed JSON. -/
inductive RemoteContent where
  | notString
  | parseError
  | parsed (p : LocalPayload)

/-- Behaviour of the remote-adapter call: transport error/timeout, a
non-ok HTTP response with an optional `error.message`, or an ok response
with some content. -/
inductive RemoteOutcome where
  | netError
  | httpError (msg : Option (List Char))
  | success (content : RemoteContent)

/-- Source `categorizeExpenseWithAI`: keyword fallback first, then the
remote call guarded by the API key; every failure degrades to a fixed
`Uncategorized` result. -/
def categorizeExpenseWithAI (openaiApiKey : List Char)
    (description merchant : List Char) (ro : RemoteOutcome) : CatResult :=
  match keywordCategoryInference description merchant with
  | some fallback => fallback
  | none =>
    if openaiApiKey = [] then
      ⟨chars "Uncategorized", 0.2,
       chars "OPENAI_API_KEY is not configured; applied fallback category."⟩
    else
      match ro with
      | .netError =>
        ⟨chars "Uncategorized", 0.2,
         chars "AI timeout/error; fallback category applied."⟩
      | .httpError msg =>
        ⟨chars "Uncategorized", 0.2,
         match msg with
         | some m => if m = [] then chars "AI request failed; fallback category applied." else m
         | none => chars "AI request failed; fallback category applied."⟩
      | .success content =>
        match content with
        | .parseError =>
          ⟨chars "Uncategorized", 0.2,
           chars "AI timeout/error; fallback category applied."⟩
        | .notString =>
          ⟨chars "Uncategorized", 0.5, chars "Categorized by AI."⟩
        | .parsed p =>
          let normalizedCategory := normalizeCategory p.category
          ⟨(if normalizedCategory = [] then chars "Uncategorized" else normalizedCategory),
           numOr p.confidence 0.5,
           sanitizeOr p.reason 120 (chars "Categorized by AI.")⟩

/-- Configuration the orchestrator reads from the environment. -/
structure CatConfig where
  mode : List Char
  minScore : ℚ
  localCategorizerUrl : List Char
  openaiApiKey : List Char

/-- One categorization request. -/
structure CatInput where
  userId : List Char
  amount : ℚ
  description : List Char
  merchant : List Char
  paymentMethod : List Char

/-- External behaviour visible to one `categorizeExpense` call. -/
structure WorldBehavior where
  store : StoreOutcome
  localOutcome : LocalOutcome
  remoteOutcome : RemoteOutcome

/-- Result of one orchestrator run, with bookkeeping flags recording
whether the local/remote adapter functions were invoked. -/
structure CatRun where
  result : Except (List Char) CatResult
  localInvoked : Bool
  remoteInvoked : Bool

/-- Source `categorizeExpense`: dictionary tier, then keyword rule tier,
then the mode-dependent adapter tier.  A dictionary-tier error other than
`P2021` propagates (there is no try/catch around the awaits). -/
def categorizeExpense (cfg : CatConfig) (inp : CatInput)
    (w : WorldBehavior) : CatRun :=
  match findMerchantCategoryInference inp.userId inp.merchant inp.description
      cfg.minScore w.store with
  | .error code => ⟨.error code, false, false⟩
  | .ok (some merchantMap) => ⟨.ok merchantMap, false, false⟩
  | .ok none =>
    match keywordCategoryInference inp.description inp.merchant with
    | some fallback => ⟨.ok fallback, false, false⟩
    | none =>
      if cfg.mode = chars "rules_only" then
        ⟨.ok ⟨chars "Uncategorized", 0.2, chars "No rules matched."⟩, false, false⟩
      else if cfg.mode = chars "rules_plus_local" then
        match categorizeExpenseWithLocalModel cfg.localCategorizerUrl w.localOutcome with
        | some localResult => ⟨.ok localResult, true, false⟩
        | none =>
          ⟨.ok ⟨chars "Uncategorized", 0.2, chars "No rules/local model match."⟩,
           true, false⟩
      else if cfg.mode = chars "rules_plus_local_then_openai" then
        match categorizeExpenseWithLocalModel cfg.localCategorizerUrl w.localOutcome with
        | some localResult => ⟨.ok localResult, true, false⟩
        | none =>
          ⟨.ok (categorizeExpenseWithAI cfg.openaiApiKey inp.description
            inp.merchant w.remoteOutcome), true, true⟩
      else
        ⟨.ok (categorizeExpenseWithAI cfg.openaiApiKey inp.description
          inp.merchant w.remoteOutcome), false, true⟩

/-- Source `CATEGORIZATION_MODE`: `(env || 'rules_plus_openai').trim().toLowerCase()`. -/
def CATEGORIZATION_MODE (env : Option (List Char)) : List Char :=
  (trimWs (match env with
    | none => chars "rules_plus_openai"
    | some v => if v = [] then chars "rules_plus_openai" else v)).map jsToLower

/-- One correction event, as passed to the learner. -/
structure LearnInput where
  userId : List Char
  merchant : List Char
  description : List Char
  oldCategory : List Char
  newCategory : List Char
  expenseId : Option (List Char)

/-- The `categoryCorrection` audit row the learner creates. -/
structure AuditRecord where
  userId : List Char
  expenseId : Option (List Char)
  merchant : Option (List Char)
  description : Option (List Char)
  oldCategory : List Char
  newCategory : List Char
deriving DecidableEq

/-- Store behaviour visible to one learner call: the audit insert either
succeeds or throws `some code`; `findFirst` either returns its row (or
no row) or throws; the final update/create either succeeds or throws. -/
structure LearnBehavior where
  auditErr : Option (List Char)
  findRes : Except (List Char) (Option DictEntry)
  writeErr : Option (List Char)

/-- What the learner did to the dictionary. -/
inductive DictAction where
  | none
  | update (existing updated : DictEntry)
  | create (created : DictEntry)
deriving DecidableEq

/-- Observable outcome of one learner call: the audit row appended (if
any), the dictionary action performed (if any), and the error the call
rejected with (if any). -/
structure LearnOutcome where
  auditRecord : Option AuditRecord
  action : DictAction
  error : Option (List Char)
deriving DecidableEq

/-- The learner's `catch`: `P2021` is swallowed, everything else rethrown. -/
def learnCatch (code : List Char) : Option (List Char) :=
  if code = chars "P2021" then none else some code

/-- In-place update the learner applies to an existing user-scoped entry
(source lines updating `merchantKeyword`, `category`, `confidenceScore`,
`source`, `isActive`). -/
def correctionUpdatedEntry (merchant newCategory : List Char)
    (existing : DictEntry) : DictEntry :=
  { existing with
    merchantKeyword :=
      if merchant = [] then normalizeMerchantText merchant else merchant
    category := newCategory
    confidenceScore := max (entryConfidence existing) 0.95
    source := chars "user_correction"
    isActive := true }

/-- The fresh user-scoped entry the learner creates when no entry exists. -/
def correctionCreatedEntry (userId merchant newCategory : List Char) : DictEntry :=
  { id := 0
    userId := some userId
    merchantKeyword :=
      if merchant = [] then normalizeMerchantText merchant else merchant
    normalizedKeyword := normalizeMerchantText merchant
    category := newCategory
    confidenceScore := 0.95
    source := chars "user_correction"
    hitCount := 0
    isActive := true }

/-- Source `learnMerchantMappingFromCorrection`.  The merchant text is
normalized first and an empty result returns immediately — before the
audit insert.  The whole body sits in one `try`; `P2021` from any step is
swallowed by `learnCatch`, other codes reject the call. -/
def learnMerchantMappingFromCorrection (inp : LearnInput)
    (b : LearnBehavior) : LearnOutcome :=
  let normalizedMerchant := normalizeMerchantText inp.merchant
  if normalizedMerchant = [] then ⟨none, .none, none⟩
  else
    match b.auditErr with
    | some code => ⟨none, .none, learnCatch code⟩
    | none =>
      let record : AuditRecord :=
        ⟨inp.userId, inp.expenseId,
         (if inp.merchant = [] then none else some inp.merchant),
         (if inp.description = [] then none else some inp.description),
         (if inp.oldCategory = [] then chars "Uncategorized" else inp.oldCategory),
         inp.newCategory⟩
      match b.findRes with
      | .error code => ⟨some record, .none, learnCatch code⟩
      | .ok (some existing) =>
        match b.writeErr with
        | some code => ⟨some record, .none, learnCatch code⟩
        | none =>
          ⟨some record,
           .update existing (correctionUpdatedEntry inp.merchant inp.newCategory existing),
           none⟩
      | .ok none =>
        match b.writeErr with
        | some code => ⟨some record, .none, learnCatch code⟩
        | none =>
          ⟨some record,
           .create (correctionCreatedEntry inp.userId inp.merchant inp.newCategory),
           none⟩

/-! Results of projections used to compare runs without forcing rational
fields (the kernel cannot normalize `ℚ` arithmetic, so counterexamples
compare the string fields). -/

/-- Reason string of an optional result (`[]` for no result). -/
def resultReason : Option CatResult → List Char
  | some r => r.reason
  | none => []

/-- Reason string of a run result (the error code for a rejection). -/
def exceptReason : Except (List Char) CatResult → List Char
  | .ok r => r.reason
  | .error code => code

/-- Category string of a run result (the error code for a rejection). -/
def exceptCategory : Except (List Char) CatResult → List Char
  | .ok r => r.category
  | .error code => code

/-- Store-behaviour precondition of the amended totality claim: the query
either returns rows whose stored confidences are in `[0,1]` (the data-model
invariant), or throws the `P2021` "table not provisioned" condition. -/
def storeOk : StoreOutcome → Prop
  | .rows maps => ∀ e ∈ maps, 0 ≤ e.confidenceScore ∧ e.confidenceScore ≤ 1
  | .fail code => code = chars "P2021"

/-- Local-adapter precondition: a confidence the adapter reports lies in
`[0,1]` (any behaviour is allowed otherwise, including malformed JSON,
missing fields, non-ok statuses and transport errors). -/
def localConfOk : LocalOutcome → Prop
  | .resp _ (some p) => ∀ q, p.confidence = some q → 0 ≤ q ∧ q ≤ 1
  | _ => True

/-- Remote-adapter precondition, as for the local adapter. -/
def remoteConfOk : RemoteOutcome → Prop
  | .success (.parsed p) => ∀ q, p.confidence = some q → 0 ≤ q ∧ q ≤ 1
  | _ => True

/-- An optional best match with in-range confidence. -/
def bestOk (b : Option BestMatch) : Prop :=
  ∀ r, b = some r → 0 ≤ r.confidence ∧ r.confidence ≤ 1

/-! ### C6 — normalizer case/punctuation insensitivity -/

/-- C6 counterexample: the spec's example fails on the code.  `!` is not in
the punctuation class `[\.,\-_/\\]`, so `normalizeMerchantText` keeps it:
the left side normalizes to `"swiggy!!"`, not `"swiggy"`. -/
theorem normalizeMerchant_bang_not_stripped :
    normalizeMerchantText (chars "Pvt. Ltd SWIGGY!!") ≠
      normalizeMerchantText (chars "swiggy") := by decide

/-- C6 (amended): the Normalizer is case-insensitive and insensitive to the
punctuation class it actually strips (`. , - _ / \`):
`normalizeMerchantText "Pvt. Ltd SWIGGY.."` equals
`normalizeMerchantText "swiggy"`, while the excluded `!` survives:
`normalizeMerchantText "Pvt. Ltd SWIGGY!!" = "swiggy!!"`. -/
theorem normalizeMerchant_case_punct_insensitive :
    normalizeMerchantText (chars "Pvt. Ltd SWIGGY..") =
      normalizeMerchantText (chars "swiggy") ∧
    normalizeMerchantText (chars "Pvt. Ltd SWIGGY!!") = chars "swiggy!!" := by
  exact ⟨by decide, by decide⟩

/-! ### C2 — audit record ordering in the Correction Learner -/

/-- C2 counterexample: for merchant `"Pvt"` (which normalizes to the empty
string) the learner returns without appending any audit record — the claim
says a CorrectionRecord is appended unconditionally before any dictionary
work. -/
theorem learner_empty_merchant_no_audit :
    learnMerchantMappingFromCorrection
      ⟨chars "u1", chars "Pvt", [], chars "Food", chars "Travel", none⟩
      ⟨none, .ok none, none⟩ = ⟨none, .none, none⟩ := by decide

/-- C2 (amended): the learner normalizes the merchant text first; when the
normalization is empty it stops without appending an audit record and
without touching the dictionary.  Otherwise the CorrectionRecord append is
the first store operation: it happens whenever the audit store accepts it,
and if the audit write throws, no dictionary action is performed. -/
theorem learner_audit_ordering (inp : LearnInput) (b : LearnBehavior) :
    (normalizeMerchantText inp.merchant = [] →
      learnMerchantMappingFromCorrection inp b = ⟨none, .none, none⟩) ∧
    (normalizeMerchantText inp.merchant ≠ [] → b.auditErr = none →
      (learnMerchantMappingFromCorrection inp b).auditRecord =
        some ⟨inp.userId, inp.expenseId,
          (if inp.merchant = [] then none else some inp.merchant),
          (if inp.description = [] then none else some inp.description),
          (if inp.oldCategory = [] then chars "Uncategorized" else inp.oldCategory),
          inp.newCategory⟩) ∧
    (∀ code, b.auditErr = some code →
      (learnMerchantMappingFromCorrection inp b).action = .none) := by
  refine ⟨fun h => ?_, fun h ha => ?_, fun code ha => ?_⟩
  · simp [learnMerchantMappingFromCorrection, h]
  · simp only [learnMerchantMappingFromCorrection, if_neg h, ha]
    rcases b.findRes with code | (_ | existing) <;> simp
    · cases b.writeErr <;> simp
    · cases b.writeErr <;> simp
  · by_cases h : normalizeMerchantText inp.merchant = []
    · simp [learnMerchantMappingFromCorrection, h]
    · simp [learnMerchantMappingFromCorrection, if_neg h, ha]

/-- C2 witness: a nonempty merchant with a healthy audit store gets its
audit row appended. -/
theorem learner_audit_ordering_witness :
    (normalizeMerchantText (chars "Swiggy") ≠ [] ∧
      (none : Option (List Char)) = none) ∧
    (learnMerchantMappingFromCorrection
        ⟨chars "u1", chars "Swiggy", [], chars "Uncategorized", chars "Food", none⟩
        ⟨none, .ok none, none⟩).auditRecord =
      some ⟨chars "u1", none, some (chars "Swiggy"), none,
        chars "Uncategorized", chars "Food"⟩ :=
  ⟨⟨by decide, rfl⟩,
    (learner_audit_ordering
      ⟨chars "u1", chars "Swiggy", [], chars "Uncategorized", chars "Food", none⟩
      ⟨none, .ok none, none⟩).2.1 (by decide) rfl⟩

/-! ### C3 — P2021 at the audit write -/

/-- C3 counterexample: when the audit insert throws `P2021`, the learner
swallows the error and resolves normally (`error = none`) — the claim says
it propagates to the caller. -/
theorem learner_audit_p2021_swallowed_concrete :
    (learnMerchantMappingFromCorrection
      ⟨chars "u1", chars "Swiggy", [], chars "Uncategorized", chars "Food", none⟩
      ⟨some (chars "P2021"), .ok none, none⟩).error = none := by decide

/-- C3 (amended): `P2021` at the audit-write step is handled exactly like
the dictionary tier handles it — the single `catch` around the learner body
swallows it, so the call resolves without error, with no audit row and no
dictionary action; only a non-`P2021` code is propagated. -/
theorem learner_audit_fail_behavior (inp : LearnInput) (b : LearnBehavior)
    (code : List Char)
    (hn : normalizeMerchantText inp.merchant ≠ [])
    (ha : b.auditErr = some code) :
    (learnMerchantMappingFromCorrection inp b).error =
      (if code = chars "P2021" then none else some code) ∧
    (learnMerchantMappingFromCorrection inp b).auditRecord = none ∧
    (learnMerchantMappingFromCorrection inp b).action = .none := by
  simp [learnMerchantMappingFromCorrection, if_neg hn, ha, learnCatch]

/-- C3 witness: audit throwing `P2021` resolves without error; a different
code (`P1001`) is rethrown. -/
theorem learner_audit_fail_behavior_witness :
    (normalizeMerchantText (chars "Swiggy") ≠ [] ∧
      (some (chars "P1001") : Option (List Char)) = some (chars "P1001")) ∧
    (learnMerchantMappingFromCorrection
        ⟨chars "u1", chars "Swiggy", [], chars "Uncategorized", chars "Food", none⟩
        ⟨some (chars "P1001"), .ok none, none⟩).error =
      (if chars "P1001" = chars "P2021" then none else some (chars "P1001")) :=
  ⟨⟨by decide, rfl⟩,
    (learner_audit_fail_behavior
      ⟨chars "u1", chars "Swiggy", [], chars "Uncategorized", chars "Food", none⟩
      ⟨some (chars "P1001"), .ok none, none⟩
      (chars "P1001") (by decide) rfl).1⟩

/-! ### C5 — learning monotonicity -/

/-- The `Math.max(Number(existing.confidenceScore || 0.8), 0.95)` update
equals `max existing 0.95`: the `|| 0.8` fallback only fires at `0`, and
`max 0.8 0.95 = 0.95 = max 0 0.95`. -/
theorem correctionUpdated_confidence (merchant newCategory : List Char)
    (existing : DictEntry) :
    (correctionUpdatedEntry merchant newCategory existing).confidenceScore =
      max existing.confidenceScore 0.95 := by
  show max (entryConfidence existing) 0.95 = max existing.confidenceScore 0.95
  unfold entryConfidence
  split
  · next h =>
    rw [h, max_eq_right (by norm_num : (0.8:ℚ) ≤ 0.95),
      max_eq_right (by norm_num : (0:ℚ) ≤ 0.95)]
  · rfl

/-- C5 (confirmed): updating an existing user-scoped entry sets its
confidence to `max(existing, 0.95)` — never lower than before — with
provenance `user_correction`, the new category, and `active = true`;
creating sets confidence `0.95`, provenance `user_correction`, hit count
`0`, `active = true`.  Two successive corrections keep the confidence
non-decreasing and the provenance `user_correction` throughout. -/
theorem learner_confidence_monotone (inp : LearnInput) (b : LearnBehavior)
    (hn : normalizeMerchantText inp.merchant ≠ [])
    (ha : b.auditErr = none) (hw : b.writeErr = none) :
    (∀ existing, b.findRes = .ok (some existing) →
      (learnMerchantMappingFromCorrection inp b).action =
        .update existing
          (correctionUpdatedEntry inp.merchant inp.newCategory existing) ∧
      (correctionUpdatedEntry inp.merchant inp.newCategory existing).confidenceScore =
        max existing.confidenceScore 0.95 ∧
      existing.confidenceScore ≤
        (correctionUpdatedEntry inp.merchant inp.newCategory existing).confidenceScore ∧
      (correctionUpdatedEntry inp.merchant inp.newCategory existing).source =
        chars "user_correction" ∧
      (correctionUpdatedEntry inp.merchant inp.newCategory existing).category =
        inp.newCategory ∧
      (correctionUpdatedEntry inp.merchant inp.newCategory existing).isActive = true) ∧
    (b.findRes = .ok none →
      (learnMerchantMappingFromCorrection inp b).action =
        .create (correctionCreatedEntry inp.userId inp.merchant inp.newCategory) ∧
      (correctionCreatedEntry inp.userId inp.merchant inp.newCategory).confidenceScore
        = 0.95 ∧
      (correctionCreatedEntry inp.userId inp.merchant inp.newCategory).source =
        chars "user_correction" ∧
      (correctionCreatedEntry inp.userId inp.merchant inp.newCategory).hitCount = 0 ∧
      (correctionCreatedEntry inp.userId inp.merchant inp.newCategory).isActive = true) ∧
    (∀ firstCategory secondCategory (e : DictEntry),
      (correctionUpdatedEntry inp.merchant firstCategory e).confidenceScore ≤
        (correctionUpdatedEntry inp.merchant secondCategory
          (correctionUpdatedEntry inp.merchant firstCategory e)).confidenceScore ∧
      (correctionUpdatedEntry inp.merchant firstCategory e).source =
        chars "user_correction" ∧
      (correctionUpdatedEntry inp.merchant secondCategory
        (correctionUpdatedEntry inp.merchant firstCategory e)).source =
          chars "user_correction") := by
  refine ⟨fun existing hf => ?_, fun hf => ?_,
    fun firstCategory secondCategory e => ?_⟩
  · refine ⟨?_, correctionUpdated_confidence .., ?_, rfl, rfl, rfl⟩
    · simp [learnMerchantMappingFromCorrection, if_neg hn, ha, hf, hw]
    · rw [correctionUpdated_confidence]; exact le_max_left _ _
  · refine ⟨?_, rfl, rfl, rfl, rfl⟩
    simp [learnMerchantMappingFromCorrection, if_neg hn, ha, hf, hw]
  · refine ⟨?_, rfl, rfl⟩
    rw [correctionUpdated_confidence inp.merchant secondCategory]
    exact le_max_left _ _

/-- C5 witness: correcting `"Swiggy Bangalore Pvt Ltd"` to `Food` with no
existing entry creates the `0.95`-confidence `user_correction` entry. -/
theorem learner_confidence_monotone_witness :
    (normalizeMerchantText (chars "Swiggy Bangalore Pvt Ltd") ≠ [] ∧
      (.ok none : Except (List Char) (Option DictEntry)) = .ok none) ∧
    (learnMerchantMappingFromCorrection
        ⟨chars "u1", chars "Swiggy Bangalore Pvt Ltd", [],
          chars "Uncategorized", chars "Food", none⟩
        ⟨none, .ok none, none⟩).action =
      .create (correctionCreatedEntry (chars "u1")
        (chars "Swiggy Bangalore Pvt Ltd") (chars "Food")) :=
  ⟨⟨by decide, rfl⟩,
    ((learner_confidence_monotone
      ⟨chars "u1", chars "Swiggy Bangalore Pvt Ltd", [],
        chars "Uncategorized", chars "Food", none⟩
      ⟨none, .ok none, none⟩ (by decide) rfl rfl).2.1 rfl).1⟩

/-! ### C8 — keyword determinism for "rent" -/

/-- C8 counterexample: the engine's reason string is
`"Matched keyword rule for Rent."`, not the claim's literal
`"matched keyword rule for Rent"`. -/
theorem keyword_rent_reason_differs :
    keywordCategoryInference [] (chars "rent") ≠
      some ⟨chars "Rent", 0.82, chars "matched keyword rule for Rent"⟩ :=
  fun h => absurd (congrArg resultReason h) (by decide)

/-- C8 (amended): any `(description, merchant)` pair whose lowercased
joined text contains `"rent"` makes the Keyword Rule Engine return category
`Rent` with confidence `0.82` and reason `"Matched keyword rule for Rent."`
— the Rent rule is first in the table and first match wins — and when the
dictionary tier returns no match the orchestrator returns exactly that
result. -/
theorem keyword_rent_first_match (d m : List Char)
    (h : hasSub ((d ++ [' '] ++ m).map jsToLower) (chars "rent") = true) :
    keywordCategoryInference d m =
      some ⟨chars "Rent", 0.82, chars "Matched keyword rule for Rent."⟩ ∧
    (∀ cfg inp w, inp.description = d → inp.merchant = m →
      findMerchantCategoryInference inp.userId inp.merchant inp.description
        cfg.minScore w.store = .ok none →
      (categorizeExpense cfg inp w).result =
        .ok ⟨chars "Rent", 0.82, chars "Matched keyword rule for Rent."⟩) := by
  have htext : ((d ++ [' '] ++ m).map jsToLower) ≠ [] := by
    intro hc
    simpa using congrArg List.length hc
  have hkw : keywordCategoryInference d m =
      some ⟨chars "Rent", 0.82, chars "Matched keyword rule for Rent."⟩ := by
    simp only [keywordCategoryInference, keywordRules]
    rw [if_neg htext,
      List.find?_cons_of_pos _ (by simp only [List.any_cons]; rw [h]; rfl)]
    rfl
  refine ⟨hkw, fun cfg inp w hd hm hdict => ?_⟩
  have h1 : keywordCategoryInference inp.description inp.merchant =
      some ⟨chars "Rent", 0.82, chars "Matched keyword rule for Rent."⟩ := by
    rw [hd, hm]; exact hkw
  simp only [categorizeExpense, hdict, h1]

/-- C8 witness: the monthly rent text matches through the engine and the
orchestrator with an empty dictionary. -/
theorem keyword_rent_first_match_witness :
    hasSub (((chars "monthly rent to landlord") ++ [' '] ++ []).map jsToLower)
      (chars "rent") = true ∧
    keywordCategoryInference (chars "monthly rent to landlord") [] =
      some ⟨chars "Rent", 0.82, chars "Matched keyword rule for Rent."⟩ :=
  ⟨by decide,
    (keyword_rent_first_match (chars "monthly rent to landlord") [] (by decide)).1⟩

/-! ### C9 — rules_only mode isolation -/

/-- C9 counterexample: in `rules_only` mode with no dictionary or rule
match, the reason string is `"No rules matched."`, not the claim's literal
`"no rules matched"`. -/
theorem rules_only_reason_differs :
    exceptReason (categorizeExpense
        ⟨chars "rules_only", 0.72, [], []⟩
        ⟨chars "u1", 250, [], chars "qqq", []⟩
        ⟨.rows [], .netError, .netError⟩).result = chars "No rules matched." ∧
    (categorizeExpense
        ⟨chars "rules_only", 0.72, [], []⟩
        ⟨chars "u1", 250, [], chars "qqq", []⟩
        ⟨.rows [], .netError, .netError⟩).result ≠
      .ok ⟨chars "Uncategorized", 0.2, chars "no rules matched"⟩ :=
  ⟨by decide, fun h => absurd (congrArg exceptReason h) (by decide)⟩

/-- C9 (amended): with mode `rules_only` the orchestrator never invokes the
local or remote adapter — on any input and any store/adapter behaviour —
and when neither the dictionary tier nor the keyword tier matches it
returns `{Uncategorized, 0.2, "No rules matched."}`. -/
theorem rules_only_mode_isolation (cfg : CatConfig) (inp : CatInput)
    (w : WorldBehavior) (hmode : cfg.mode = chars "rules_only") :
    (categorizeExpense cfg inp w).localInvoked = false ∧
    (categorizeExpense cfg inp w).remoteInvoked = false ∧
    (findMerchantCategoryInference inp.userId inp.merchant inp.description
        cfg.minScore w.store = .ok none →
      keywordCategoryInference inp.description inp.merchant = none →
      (categorizeExpense cfg inp w).result =
        .ok ⟨chars "Uncategorized", 0.2, chars "No rules matched."⟩) := by
  cases hdict : findMerchantCategoryInference inp.userId inp.merchant
      inp.description cfg.minScore w.store with
  | error code => simp [categorizeExpense, hdict]
  | ok o =>
    cases o with
    | some r => simp [categorizeExpense, hdict]
    | none =>
      cases hkw : keywordCategoryInference inp.description inp.merchant with
      | some r => simp [categorizeExpense, hdict, hkw]
      | none => simp [categorizeExpense, hdict, hkw, hmode]

/-- C9 witness: the concrete `rules_only` no-match run. -/
theorem rules_only_mode_isolation_witness :
    (⟨chars "rules_only", 0.72, [], []⟩ : CatConfig).mode = chars "rules_only" ∧
    (categorizeExpense ⟨chars "rules_only", 0.72, [], []⟩
        ⟨chars "u1", 250, [], chars "qqq", []⟩
        ⟨.rows [], .netError, .netError⟩).localInvoked = false :=
  ⟨rfl,
    (rules_only_mode_isolation ⟨chars "rules_only", 0.72, [], []⟩
      ⟨chars "u1", 250, [], chars "qqq", []⟩
      ⟨.rows [], .netError, .netError⟩ rfl).1⟩

/-! ### C10 — unrecognized modes behave like the default -/

/-- C10 (confirmed): any processed mode string other than the three
explicitly tested values makes `categorizeExpense` behave exactly as in
the default `rules_plus_openai` mode, and in particular it proceeds to the
remote-adapter tier once the dictionary and rule tiers fail. -/
theorem unrecognized_mode_defaults (env : Option (List Char)) (minScore : ℚ)
    (localUrl apiKey : List Char) (inp : CatInput) (w : WorldBehavior)
    (h1 : CATEGORIZATION_MODE env ≠ chars "rules_only")
    (h2 : CATEGORIZATION_MODE env ≠ chars "rules_plus_local")
    (h3 : CATEGORIZATION_MODE env ≠ chars "rules_plus_local_then_openai") :
    categorizeExpense ⟨CATEGORIZATION_MODE env, minScore, localUrl, apiKey⟩ inp w =
      categorizeExpense ⟨chars "rules_plus_openai", minScore, localUrl, apiKey⟩ inp w ∧
    (findMerchantCategoryInference inp.userId inp.merchant inp.description
        minScore w.store = .ok none →
      keywordCategoryInference inp.description inp.merchant = none →
      (categorizeExpense ⟨CATEGORIZATION_MODE env, minScore, localUrl, apiKey⟩
          inp w).remoteInvoked = true ∧
      (categorizeExpense ⟨CATEGORIZATION_MODE env, minScore, localUrl, apiKey⟩
          inp w).localInvoked = false) := by
  cases hdict : findMerchantCategoryInference inp.userId inp.merchant
      inp.description minScore w.store with
  | error code => refine ⟨by simp [categorizeExpense, hdict], fun hd _ => by cases hd⟩
  | ok o =>
    cases o with
    | some r =>
      refine ⟨by simp [categorizeExpense, hdict], fun hd _ => by cases hd⟩
    | none =>
      cases hkw : keywordCategoryInference inp.description inp.merchant with
      | some r =>
        refine ⟨by simp [categorizeExpense, hdict, hkw], fun _ hk => by cases hk⟩
      | none =>
        constructor
        · simp only [categorizeExpense, hdict, hkw]
          rw [if_neg h1, if_neg h2, if_neg h3,
            if_neg (by decide : ¬(chars "rules_plus_openai" = chars "rules_only")),
            if_neg (by decide :
              ¬(chars "rules_plus_openai" = chars "rules_plus_local")),
            if_neg (by decide :
              ¬(chars "rules_plus_openai" = chars "rules_plus_local_then_openai"))]
        · intro _ _
          simp only [categorizeExpense, hdict, hkw]
          rw [if_neg h1, if_neg h2, if_neg h3]
          exact ⟨rfl, rfl⟩

/-- C10 witness: the misspelled mode `"RULES_PLUS_OPENAI_V2"` (processed to
`"rules_plus_openai_v2"`) runs identically to the default mode. -/
theorem unrecognized_mode_defaults_witness :
    (CATEGORIZATION_MODE (some (chars "RULES_PLUS_OPENAI_V2")) ≠ chars "rules_only" ∧
     CATEGORIZATION_MODE (some (chars "RULES_PLUS_OPENAI_V2")) ≠ chars "rules_plus_local" ∧
     CATEGORIZATION_MODE (some (chars "RULES_PLUS_OPENAI_V2")) ≠
       chars "rules_plus_local_then_openai") ∧
    categorizeExpense
        ⟨CATEGORIZATION_MODE (some (chars "RULES_PLUS_OPENAI_V2")), 0.72, [], []⟩
        ⟨chars "u1", 250, [], chars "qqq", []⟩
        ⟨.rows [], .netError, .netError⟩ =
      categorizeExpense ⟨chars "rules_plus_openai", 0.72, [], []⟩
        ⟨chars "u1", 250, [], chars "qqq", []⟩
        ⟨.rows [], .netError, .netError⟩ :=
  ⟨⟨by decide, by decide, by decide⟩,
    (unrecognized_mode_defaults (some (chars "RULES_PLUS_OPENAI_V2")) 0.72 [] []
      ⟨chars "u1", 250, [], chars "qqq", []⟩
      ⟨.rows [], .netError, .netError⟩
      (by decide) (by decide) (by decide)).1⟩

/-! ### C4 — dictionary threshold boundary -/

/-- C4 (confirmed): an entry with confidence `0.8` and a candidate at
similarity `0.99` scores `0.99 × 0.8 = 0.792`; the matcher accepts at
threshold `0.72` with confidence `min(0.99, 0.792)` and rejects at `0.85`,
in which case the orchestrator falls through to the keyword rule tier. -/
theorem dictionary_threshold_boundary (e : DictEntry) (m u : List Char)
    (hconf : e.confidenceScore = 0.8)
    (hnm : normalizeMerchantText m ≠ [])
    (hsim : similarityScore (normalizeMerchantText m)
      (entryNormalizedKeyword e) = 0.99) :
    findMerchantCategoryInference u m [] 0.72 (.rows [e]) =
      .ok (some ⟨(if normalizeCategory e.category = [] then chars "Uncategorized"
          else normalizeCategory e.category),
        min 0.99 (0.99 * 0.8),
        chars "Matched merchant dictionary (" ++ entrySource e ++ chars ")."⟩) ∧
    min (0.99 : ℚ) (0.99 * 0.8) = 0.792 ∧
    findMerchantCategoryInference u m [] 0.85 (.rows [e]) = .ok none ∧
    (∀ cfg inp w r, cfg.minScore = 0.85 → inp.merchant = m →
      inp.description = [] → w.store = .rows [e] →
      keywordCategoryInference [] m = some r →
      (categorizeExpense cfg inp w).result = .ok r) := by
  have hnk : entryNormalizedKeyword e ≠ [] := by
    intro h0
    rw [h0] at hsim
    rw [similarityScore, if_pos (Or.inr rfl)] at hsim
    norm_num at hsim
  have hnmE : (normalizeMerchantText m).isEmpty = false := by
    cases hx : normalizeMerchantText m with
    | nil => exact absurd hx hnm
    | cons a l => rfl
  have hec : entryConfidence e = 0.8 := by
    rw [entryConfidence, hconf, if_neg (by norm_num : ¬((0.8 : ℚ) = 0))]
  have heval : ∀ (u' : List Char) (minScore : ℚ),
      findMerchantCategoryInference u' m [] minScore (.rows [e]) =
        if 0.99 * 0.8 < minScore then .ok none
        else .ok (some ⟨(if normalizeCategory e.category = [] then
            chars "Uncategorized" else normalizeCategory e.category),
          min 0.99 (0.99 * 0.8),
          chars "Matched merchant dictionary (" ++ entrySource e ++ chars ")."⟩) := by
    intro u' minScore
    simp only [findMerchantCategoryInference, List.filter, hnmE,
      show normalizeMerchantText ([] : List Char) = [] from rfl,
      List.isEmpty_nil, Bool.not_true, Bool.not_false, List.foldl,
      considerEntry, beatsBest, if_neg hnk, hsim, hec]
    rw [if_neg (by simp : ¬([normalizeMerchantText m] = []))]
    by_cases hlt : (0.99 * 0.8 : ℚ) < minScore
    · simp only [if_pos hlt]
    · simp only [if_neg hlt, if_true]
  refine ⟨?_, by norm_num, ?_, ?_⟩
  · rw [heval u 0.72, if_neg (by norm_num)]
  · rw [heval u 0.85, if_pos (by norm_num)]
  · intro cfg inp w r h85 hm hd hstore hkw
    have hfind : findMerchantCategoryInference inp.userId inp.merchant
        inp.description cfg.minScore w.store = .ok none := by
      rw [hm, hd, h85, hstore, heval inp.userId 0.85, if_pos (by norm_num)]
    have hkw2 : keywordCategoryInference inp.description inp.merchant = some r := by
      rw [hd, hm]; exact hkw
    simp only [categorizeExpense, hfind, hkw2]

/-- C4 witness: the seed entry `swiggy → Food` at confidence `0.8` against
merchant `"Swiggy Bangalore"` (similarity `0.99` via containment) is
rejected at threshold `0.85`. -/
theorem dictionary_threshold_boundary_witness :
    ((⟨7, none, chars "swiggy", chars "swiggy", chars "Food", 0.8,
        chars "seed", 0, true⟩ : DictEntry).confidenceScore = 0.8 ∧
      normalizeMerchantText (chars "Swiggy Bangalore") ≠ []) ∧
    findMerchantCategoryInference (chars "u1") (chars "Swiggy Bangalore") [] 0.85
      (.rows [⟨7, none, chars "swiggy", chars "swiggy", chars "Food", 0.8,
        chars "seed", 0, true⟩]) = .ok none :=
  ⟨⟨rfl, by decide⟩,
    (dictionary_threshold_boundary
      ⟨7, none, chars "swiggy", chars "swiggy", chars "Food", 0.8,
        chars "seed", 0, true⟩
      (chars "Swiggy Bangalore") (chars "u1") rfl (by decide)
      (by rw [similarityScore, if_neg (by decide), if_pos (by decide)])).2.2.1⟩

/-! ### C1 — totality of the orchestrator -/

/-- Levenshtein distance is bounded by the longer length. -/
theorem levenshteinDistance_le (a b : List Char) :
    levenshteinDistance a b ≤ max a.length b.length := by
  induction a, b using levenshteinDistance.induct with
  | case1 b => simp [levenshteinDistance]
  | case2 a as => simp [levenshteinDistance]
  | case3 as b bs ih =>
    rw [levenshteinDistance, if_pos rfl]
    simp only [List.length_cons] at *
    omega
  | case4 a as b bs h ih1 ih2 ih3 =>
    rw [levenshteinDistance, if_neg h]
    simp only [List.length_cons] at *
    omega

/-- The similarity score always lies in `[0, 1]`. -/
theorem similarityScore_bounds (a b : List Char) :
    0 ≤ similarityScore a b ∧ similarityScore a b ≤ 1 := by
  rw [similarityScore]
  split
  · norm_num
  · split
    · norm_num
    · next hne _ =>
      simp only []
      split
      · norm_num
      · next hM =>
        have ha : a ≠ [] := fun hc => hne (Or.inl hc)
        have hMpos : (0 : ℚ) < max (a.length : ℚ) (b.length : ℚ) := by
          have : (1 : ℚ) ≤ (a.length : ℚ) := by
            have : 1 ≤ a.length := by
              cases a with
              | nil => exact absurd rfl ha
              | cons x xs => simp
            exact_mod_cast this
          calc (0:ℚ) < 1 := by norm_num
            _ ≤ (a.length : ℚ) := this
            _ ≤ max (a.length : ℚ) (b.length : ℚ) := le_max_left _ _
        have hd0 : (0 : ℚ) ≤ (levenshteinDistance a b : ℚ) := by positivity
        have hdM : (levenshteinDistance a b : ℚ) ≤
            max (a.length : ℚ) (b.length : ℚ) := by
          have := levenshteinDistance_le a b
          have h2 : ((levenshteinDistance a b : ℕ) : ℚ) ≤
              ((max a.length b.length : ℕ) : ℚ) := by exact_mod_cast this
          calc ((levenshteinDistance a b : ℕ) : ℚ)
              ≤ ((max a.length b.length : ℕ) : ℚ) := h2
            _ = max (a.length : ℚ) (b.length : ℚ) := by push_cast; rfl
        constructor
        · have : (levenshteinDistance a b : ℚ) /
              max (a.length : ℚ) (b.length : ℚ) ≤ 1 :=
            (div_le_one hMpos).mpr hdM
          linarith
        · have : 0 ≤ (levenshteinDistance a b : ℚ) /
              max (a.length : ℚ) (b.length : ℚ) :=
            div_nonneg hd0 (le_of_lt hMpos)
          linarith

/-- Every keyword-tier result carries confidence `0.82`. -/
theorem keywordCategoryInference_confidence (d m : List Char) (r : CatResult)
    (h : keywordCategoryInference d m = some r) : r.confidence = 0.82 := by
  rw [keywordCategoryInference] at h
  split at h
  · cases h
  · split at h
    · cases h; rfl
    · cases h

/-- A `numOr` value is in `[0,1]` when the fallback is and the reported
value (if any) is. -/
theorem numOr_bounds (x : Option ℚ) (d : ℚ) (hd : 0 ≤ d ∧ d ≤ 1)
    (hx : ∀ q, x = some q → 0 ≤ q ∧ q ≤ 1) :
    0 ≤ numOr x d ∧ numOr x d ≤ 1 := by
  match x, hx with
  | none, _ => simpa [numOr] using hd
  | some q, hx =>
    simp only [numOr]
    by_cases hq : q = 0
    · rw [if_pos hq]; exact hd
    · rw [if_neg hq]; exact hx q rfl

/-- Bounds for a successful local-model result. -/
theorem localModel_confidence_bounds (url : List Char) (lo : LocalOutcome)
    (r : CatResult) (hok : localConfOk lo)
    (h : categorizeExpenseWithLocalModel url lo = some r) :
    0 ≤ r.confidence ∧ r.confidence ≤ 1 := by
  cases lo with
  | netError => simp [categorizeExpenseWithLocalModel] at h
  | resp ok payload =>
    cases payload with
    | none => simp [categorizeExpenseWithLocalModel] at h
    | some p =>
      simp only [categorizeExpenseWithLocalModel] at h
      split at h
      · cases h
      · split at h
        · cases h
        · split at h
          · cases h
          · cases h
            exact numOr_bounds p.confidence 0.7 (by norm_num) hok

/-- Bounds for the remote tier: `categorizeExpenseWithAI` always returns a
confidence in `[0,1]` under the remote precondition. -/
theorem categorizeAI_confidence_bounds (key d m : List Char)
    (ro : RemoteOutcome) (hok : remoteConfOk ro) :
    0 ≤ (categorizeExpenseWithAI key d m ro).confidence ∧
      (categorizeExpenseWithAI key d m ro).confidence ≤ 1 := by
  cases hkw : keywordCategoryInference d m with
  | some fb =>
    simp only [categorizeExpenseWithAI, hkw]
    rw [keywordCategoryInference_confidence d m fb hkw]
    norm_num
  | none =>
    simp only [categorizeExpenseWithAI, hkw]
    split
    · norm_num
    · match ro, hok with
      | .netError, _ => norm_num
      | .httpError msg, _ => norm_num
      | .success .parseError, _ => norm_num
      | .success .notString, _ => norm_num
      | .success (.parsed p), hok =>
        exact numOr_bounds p.confidence 0.5 (by norm_num) hok

/-- A fold preserves a predicate its step preserves. -/
theorem foldl_preserves {α β : Type} (P : β → Prop) (step : β → α → β)
    (hstep : ∀ b a, P b → P (step b a)) :
    ∀ (l : List α) (b : β), P b → P (l.foldl step b) := by
  intro l
  induction l with
  | nil => intro b hb; exact hb
  | cons a l ih => intro b hb; exact ih _ (hstep b a hb)

/-- One `considerEntry` step preserves in-range best matches, because the
accepted confidence is `min 0.99 weighted` with `weighted ≥ 0`. -/
theorem considerEntry_bestOk (minScore : ℚ) (cands : List (List Char))
    (b : Option BestMatch) (e : DictEntry)
    (he : 0 ≤ e.confidenceScore ∧ e.confidenceScore ≤ 1)
    (hb : bestOk b) : bestOk (considerEntry minScore cands b e) := by
  rw [considerEntry]
  split
  · exact hb
  · refine foldl_preserves bestOk _ (fun b' c hb' => ?_) cands b hb
    have hconf : 0 ≤ entryConfidence e := by
      rw [entryConfidence]
      split
      · norm_num
      · exact he.1
    have hw : 0 ≤ similarityScore c (entryNormalizedKeyword e) *
        entryConfidence e :=
      mul_nonneg (similarityScore_bounds _ _).1 hconf
    intro r hr
    simp only [] at hr
    by_cases h1 : similarityScore c (entryNormalizedKeyword e) *
        entryConfidence e < minScore
    · rw [if_pos h1] at hr
      exact hb' r hr
    · rw [if_neg h1] at hr
      by_cases h2 : beatsBest (similarityScore c (entryNormalizedKeyword e) *
          entryConfidence e) b' = true
      · rw [if_pos h2] at hr
        cases hr
        constructor
        · exact le_min (by norm_num) hw
        · exact le_trans (min_le_left _ _) (by norm_num)
      · rw [if_neg h2] at hr
        exact hb' r hr

/-- The row fold preserves in-range best matches when every row satisfies
the data-model confidence invariant. -/
theorem foldl_considerEntry_bestOk (minScore : ℚ) (cands : List (List Char)) :
    ∀ (maps : List DictEntry) (b : Option BestMatch),
      (∀ e ∈ maps, 0 ≤ e.confidenceScore ∧ e.confidenceScore ≤ 1) → bestOk b →
      bestOk (maps.foldl (considerEntry minScore cands) b) := by
  intro maps
  induction maps with
  | nil => intro b _ hb; exact hb
  | cons e es ih =>
    intro b hm hb
    exact ih _ (fun x hx => hm x (List.mem_cons_of_mem _ hx))
      (considerEntry_bestOk minScore cands b e (hm e (List.mem_cons_self _ _)) hb)

/-- A `P2021` store failure degrades the dictionary tier to no-match. -/
theorem findMerchant_fail_p2021 (u m d : List Char) (minScore : ℚ) :
    findMerchantCategoryInference u m d minScore (.fail (chars "P2021")) =
      .ok none := by
  rw [findMerchantCategoryInference.eq_def]
  split
  all_goals rename_i x heq
  all_goals cases heq
  rw [if_pos rfl]
  simp

/-- Under `storeOk` the dictionary tier never rejects. -/
theorem findMerchant_no_error (u m d : List Char) (minScore : ℚ)
    (store : StoreOutcome) (hs : storeOk store) (code : List Char) :
    findMerchantCategoryInference u m d minScore store ≠ .error code := by
  match store, hs with
  | .rows maps, _ =>
    intro h
    simp only [findMerchantCategoryInference] at h
    split at h
    · cases h
    · split at h <;> cases h
  | .fail c, hs =>
    have hc : c = chars "P2021" := hs
    subst hc
    rw [findMerchant_fail_p2021]
    intro h; cases h

/-- A dictionary-tier match has confidence in `[0,1]` when the rows do. -/
theorem findMerchant_some_bounds (u m d : List Char) (minScore : ℚ)
    (maps : List DictEntry) (r : CatResult)
    (hm : ∀ e ∈ maps, 0 ≤ e.confidenceScore ∧ e.confidenceScore ≤ 1)
    (h : findMerchantCategoryInference u m d minScore (.rows maps) =
      .ok (some r)) : 0 ≤ r.confidence ∧ r.confidence ≤ 1 := by
  simp only [findMerchantCategoryInference] at h
  split at h
  · cases h
  · revert h
    split
    · intro h; cases h
    · next best heq =>
      intro h
      cases h
      exact foldl_considerEntry_bestOk minScore _ maps none hm
        (fun r hr => by cases hr) best heq

/-- C1 counterexample: a dictionary-store failure with any code other than
`P2021` (here `P1001`, an unreachable database host) is rethrown by the
dictionary tier and propagates out of `categorizeExpense` — the call
rejects instead of returning a fallback result. -/
theorem categorize_raises_on_other_store_error :
    (categorizeExpense ⟨chars "rules_plus_openai", 0.72, [], []⟩
      ⟨chars "u1", 250, [], chars "qqq", []⟩
      ⟨.fail (chars "P1001"), .netError, .netError⟩).result =
      .error (chars "P1001") := rfl

/-- C1 (amended): for every input and configuration, whenever the
dictionary store either returns rows satisfying the confidence invariant or
fails only with the `P2021` condition, and the adapters — which may
misbehave in any other way (malformed JSON, missing fields, non-ok
statuses, timeouts, transport errors) — report confidences only inside
`[0,1]`, `categorizeExpense` resolves with a well-formed result whose
confidence is in `[0,1]`.  (Without the store restriction the call can
reject, and without the adapter restriction an out-of-range confidence is
passed through.) -/
theorem categorize_never_raises (cfg : CatConfig) (inp : CatInput)
    (w : WorldBehavior) (hs : storeOk w.store)
    (hl : localConfOk w.localOutcome) (hr : remoteConfOk w.remoteOutcome) :
    ∃ res : CatResult, (categorizeExpense cfg inp w).result = .ok res ∧
      0 ≤ res.confidence ∧ res.confidence ≤ 1 := by
  cases hdict : findMerchantCategoryInference inp.userId inp.merchant
      inp.description cfg.minScore w.store with
  | error code =>
    exact absurd hdict
      (findMerchant_no_error inp.userId inp.merchant inp.description
        cfg.minScore w.store hs code)
  | ok o =>
    cases o with
    | some r =>
      refine ⟨r, by simp [categorizeExpense, hdict], ?_⟩
      match hw : w.store, hs with
      | .rows maps, hs =>
        rw [hw] at hdict
        exact findMerchant_some_bounds inp.userId inp.merchant inp.description
          cfg.minScore maps r hs hdict
      | .fail c, hs =>
        have hc : c = chars "P2021" := hs
        rw [hw, hc, findMerchant_fail_p2021] at hdict
        cases hdict
    | none =>
      cases hkw : keywordCategoryInference inp.description inp.merchant with
      | some fb =>
        refine ⟨fb, by simp [categorizeExpense, hdict, hkw], ?_⟩
        rw [keywordCategoryInference_confidence inp.description inp.merchant
          fb hkw]
        norm_num
      | none =>
        by_cases h1 : cfg.mode = chars "rules_only"
        · refine ⟨⟨chars "Uncategorized", 0.2, chars "No rules matched."⟩,
            ?_, by norm_num⟩
          simp only [categorizeExpense, hdict, hkw]
          rw [if_pos h1]
        · by_cases h2 : cfg.mode = chars "rules_plus_local"
          · cases hloc : categorizeExpenseWithLocalModel cfg.localCategorizerUrl
                w.localOutcome with
            | some lr =>
              refine ⟨lr, ?_, localModel_confidence_bounds _ _ lr hl hloc⟩
              simp only [categorizeExpense, hdict, hkw]
              rw [if_neg h1, if_pos h2]
              simp only [hloc]
            | none =>
              refine ⟨⟨chars "Uncategorized", 0.2,
                chars "No rules/local model match."⟩, ?_, by norm_num⟩
              simp only [categorizeExpense, hdict, hkw]
              rw [if_neg h1, if_pos h2]
              simp only [hloc]
          · by_cases h3 : cfg.mode = chars "rules_plus_local_then_openai"
            · cases hloc : categorizeExpenseWithLocalModel
                  cfg.localCategorizerUrl w.localOutcome with
              | some lr =>
                refine ⟨lr, ?_, localModel_confidence_bounds _ _ lr hl hloc⟩
                simp only [categorizeExpense, hdict, hkw]
                rw [if_neg h1, if_neg h2, if_pos h3]
                simp only [hloc]
              | none =>
                refine ⟨categorizeExpenseWithAI cfg.openaiApiKey
                    inp.description inp.merchant w.remoteOutcome, ?_,
                  categorizeAI_confidence_bounds cfg.openaiApiKey
                    inp.description inp.merchant w.remoteOutcome hr⟩
                simp only [categorizeExpense, hdict, hkw]
                rw [if_neg h1, if_neg h2, if_pos h3]
                simp only [hloc]
            · refine ⟨categorizeExpenseWithAI cfg.openaiApiKey
                  inp.description inp.merchant w.remoteOutcome, ?_,
                categorizeAI_confidence_bounds cfg.openaiApiKey
                  inp.description inp.merchant w.remoteOutcome hr⟩
              simp only [categorizeExpense, hdict, hkw]
              rw [if_neg h1, if_neg h2, if_neg h3]

/-- C1 witness: with the store reporting `P2021` and both adapters dead,
the default-mode call still resolves with an in-range result. -/
theorem categorize_never_raises_witness :
    (storeOk (.fail (chars "P2021")) ∧ localConfOk .netError ∧
      remoteConfOk .netError) ∧
    ∃ res : CatResult,
      (categorizeExpense ⟨chars "rules_plus_openai", 0.72, [], []⟩
        ⟨chars "u1", 250, [], chars "qqq", []⟩
        ⟨.fail (chars "P2021"), .netError, .netError⟩).result = .ok res ∧
      0 ≤ res.confidence ∧ res.confidence ≤ 1 :=
  ⟨⟨rfl, trivial, trivial⟩,
    categorize_never_raises ⟨chars "rules_plus_openai", 0.72, [], []⟩
      ⟨chars "u1", 250, [], chars "qqq", []⟩
      ⟨.fail (chars "P2021"), .netError, .netError⟩ rfl trivial trivial⟩

/-! ### C7 — normalizer idempotence: generic list lemmas -/

theorem dropWhile_twice (q : Char → Bool) (l : List Char) :
    (l.dropWhile q).dropWhile q = l.dropWhile q := by
  induction l with
  | nil => rfl
  | cons c cs ih =>
    by_cases h : q c = true
    · rw [List.dropWhile_cons_of_pos h]; exact ih
    · rw [List.dropWhile_cons_of_neg (by simp [h]),
        List.dropWhile_cons_of_neg (by simp [h])]

theorem dropWhile_length_le (q : Char → Bool) (l : List Char) :
    (l.dropWhile q).length ≤ l.length := by
  induction l with
  | nil => exact Nat.le_refl _
  | cons c cs ih =>
    by_cases h : q c = true
    · rw [List.dropWhile_cons_of_pos h]; exact Nat.le_succ_of_le ih
    · rw [List.dropWhile_cons_of_neg (by simp [h])]

theorem mem_dropWhile (q : Char → Bool) {x : Char} :
    ∀ {l : List Char}, x ∈ l.dropWhile q → x ∈ l := by
  intro l
  induction l with
  | nil => intro h; exact h
  | cons c cs ih =>
    intro h
    by_cases hq : q c = true
    · rw [List.dropWhile_cons_of_pos hq] at h
      exact List.mem_cons_of_mem _ (ih h)
    · rwa [List.dropWhile_cons_of_neg (by simp [hq])] at h

theorem dropWhile_head_false (q : Char → Bool) :
    ∀ {l : List Char} {x : Char} {xs : List Char},
      l.dropWhile q = x :: xs → q x = false := by
  intro l
  induction l with
  | nil => intro x xs h; cases h
  | cons c cs ih =>
    intro x xs h
    by_cases hq : q c = true
    · rw [List.dropWhile_cons_of_pos hq] at h; exact ih h
    · rw [List.dropWhile_cons_of_neg (by simp [hq])] at h
      cases h
      exact Bool.eq_false_iff.mpr hq

theorem dropWhile_nil_iff (q : Char → Bool) (l : List Char) :
    l.dropWhile q = [] ↔ ∀ x ∈ l, q x = true := by
  induction l with
  | nil => simp
  | cons c cs ih =>
    by_cases hq : q c = true
    · rw [List.dropWhile_cons_of_pos hq, ih]
      constructor
      · intro h x hx
        rcases List.mem_cons.mp hx with h1 | h1
        · rw [h1]; exact hq
        · exact h x h1
      · intro h x hx; exact h x (List.mem_cons_of_mem _ hx)
    · rw [List.dropWhile_cons_of_neg (by simp [hq])]
      constructor
      · intro h; cases h
      · intro h; exact absurd (h c (List.mem_cons_self _ _)) hq

theorem head_false_of_dropWhile_fixed (q : Char → Bool) {x : Char}
    {xs : List Char} (h : (x :: xs).dropWhile q = x :: xs) : q x = false := by
  by_cases hq : q x = true
  · rw [List.dropWhile_cons_of_pos hq] at h
    have hlen := dropWhile_length_le q xs
    rw [h] at hlen
    simp only [List.length_cons] at hlen
    omega
  · exact Bool.eq_false_iff.mpr hq

theorem dropWhile_append_singleton (q : Char → Bool) (a : Char)
    (xs : List Char) :
    (xs ++ [a]).dropWhile q =
      if xs.dropWhile q = [] then [a].dropWhile q
      else xs.dropWhile q ++ [a] := by
  induction xs with
  | nil => simp
  | cons c cs ih =>
    by_cases hq : q c = true
    · rw [List.cons_append, List.dropWhile_cons_of_pos hq,
        List.dropWhile_cons_of_pos hq, ih]
    · rw [List.cons_append, List.dropWhile_cons_of_neg (by simp [hq]),
        List.dropWhile_cons_of_neg (by simp [hq]),
        if_neg (by simp), List.cons_append]

theorem dropTrailingWs_nil_iff (l : List Char) :
    dropTrailingWs l = [] ↔ ∀ x ∈ l, isSpaceChar x = true := by
  unfold dropTrailingWs
  rw [List.reverse_eq_nil_iff, dropWhile_nil_iff]
  constructor
  · intro h x hx; exact h x (List.mem_reverse.mpr hx)
  · intro h x hx; exact h x (List.mem_reverse.mp hx)

theorem dropTrailingWs_cons (c : Char) (cs : List Char) :
    dropTrailingWs (c :: cs) =
      if dropTrailingWs cs = [] then (if isSpaceChar c then [] else [c])
      else c :: dropTrailingWs cs := by
  unfold dropTrailingWs
  rw [List.reverse_cons, dropWhile_append_singleton]
  by_cases h0 : cs.reverse.dropWhile isSpaceChar = []
  · rw [if_pos h0, if_pos (List.reverse_eq_nil_iff.mpr h0)]
    by_cases hc : isSpaceChar c = true
    · rw [List.dropWhile_cons_of_pos hc, if_pos hc]
      rfl
    · rw [List.dropWhile_cons_of_neg (by simp [hc]), if_neg (by simp [hc])]
      rfl
  · rw [if_neg h0, if_neg (fun hh => h0 (List.reverse_eq_nil_iff.mp hh)),
      List.reverse_append]
    rfl

theorem dropTrailingWs_idem (l : List Char) :
    dropTrailingWs (dropTrailingWs l) = dropTrailingWs l := by
  unfold dropTrailingWs
  rw [List.reverse_reverse, dropWhile_twice]

theorem mem_dropTrailingWs {x : Char} {l : List Char}
    (h : x ∈ dropTrailingWs l) : x ∈ l := by
  unfold dropTrailingWs at h
  rw [List.mem_reverse] at h
  exact List.mem_reverse.mp (mem_dropWhile _ h)

theorem dropTrailingWs_head {x : Char} {xs l : List Char}
    (h : dropTrailingWs l = x :: xs) : ∃ ys, l = x :: ys := by
  cases l with
  | nil => cases h
  | cons c cs =>
    rw [dropTrailingWs_cons] at h
    split at h
    · split at h
      · cases h
      · cases h
        exact ⟨cs, rfl⟩
    · cases h
      exact ⟨cs, rfl⟩

theorem trimWs_idem (l : List Char) : trimWs (trimWs l) = trimWs l := by
  unfold trimWs
  have h1 : (l.dropWhile isSpaceChar).dropWhile isSpaceChar =
      l.dropWhile isSpaceChar := dropWhile_twice _ l
  have h2 : (dropTrailingWs (l.dropWhile isSpaceChar)).dropWhile isSpaceChar =
      dropTrailingWs (l.dropWhile isSpaceChar) := by
    cases hB : dropTrailingWs (l.dropWhile isSpaceChar) with
    | nil => rfl
    | cons x xs =>
      rcases dropTrailingWs_head hB with ⟨ys, hys⟩
      have hx : isSpaceChar x = false := by
        apply head_false_of_dropWhile_fixed isSpaceChar
        rw [← hys]; exact h1
      exact List.dropWhile_cons_of_neg (by simp [hx])
  rw [h2, dropTrailingWs_idem]

theorem mem_trimWs {x : Char} {l : List Char} (h : x ∈ trimWs l) : x ∈ l :=
  mem_dropWhile _ (mem_dropTrailingWs h)

theorem trimWs_nil_of_all {l : List Char}
    (h : ∀ x ∈ l, isSpaceChar x = true) : trimWs l = [] := by
  unfold trimWs
  rw [(dropWhile_nil_iff _ l).mpr h]
  rfl

theorem trimWs_length_le (l : List Char) : (trimWs l).length ≤ l.length := by
  unfold trimWs dropTrailingWs
  calc ((l.dropWhile isSpaceChar).reverse.dropWhile isSpaceChar).reverse.length
      = ((l.dropWhile isSpaceChar).reverse.dropWhile isSpaceChar).length := by
        rw [List.length_reverse]
    _ ≤ (l.dropWhile isSpaceChar).reverse.length := dropWhile_length_le _ _
    _ = (l.dropWhile isSpaceChar).length := by rw [List.length_reverse]
    _ ≤ l.length := dropWhile_length_le _ _

theorem toNat_ofNat_valid {n : Nat} (h : n < 55296) :
    (Char.ofNat n).toNat = n := by
  have hv : n.isValidChar := Or.inl h
  rw [Char.ofNat, dif_pos hv]
  rfl

theorem jsToLower_not_upper (c : Char) :
    ¬(65 ≤ (jsToLower c).toNat ∧ (jsToLower c).toNat ≤ 90) := by
  unfold jsToLower
  split
  · next h =>
    rw [toNat_ofNat_valid (by omega : c.toNat + 32 < 55296)]
    omega
  · next h => exact h

/-- The ASCII lowercase map is idempotent. -/
theorem jsToLower_idem (c : Char) : jsToLower (jsToLower c) = jsToLower c := by
  have h := jsToLower_not_upper c
  generalize jsToLower c = d at h ⊢
  rw [jsToLower, if_neg h]

/-- The single-character lowercase map never produces U+0130 from another
character (its only non-identity images are ASCII lowercase letters). -/
theorem jsToLower_ne_dottedI {c : Char} (h : c ≠ dottedI) :
    jsToLower c ≠ dottedI := by
  unfold jsToLower
  split
  · next hu =>
    intro he
    have h1 : (Char.ofNat (c.toNat + 32)).toNat = c.toNat + 32 :=
      toNat_ofNat_valid (by omega)
    rw [he] at h1
    have h2 : dottedI.toNat = 304 := by decide
    omega
  · next _ => exact h

/-- On a string without U+0130, the full lowercase is the character-wise
single-character map. -/
theorem jsLowerCase_eq_map (l : List Char) (h : dottedI ∉ l) :
    jsLowerCase l = l.map jsToLower := by
  induction l with
  | nil => rfl
  | cons c cs ih =>
    have hc : ¬ c = dottedI := fun hc => h (List.mem_cons.mpr (Or.inl hc.symm))
    show jsToLowerFull c ++ jsLowerCase cs = _
    rw [show jsToLowerFull c = [jsToLower c] from by
        unfold jsToLowerFull; rw [if_neg hc],
      ih (fun hm => h (List.mem_cons_of_mem _ hm)), List.map_cons,
      List.singleton_append]

theorem space_not_word {c : Char} (h : isSpaceChar c = true) :
    isWordChar c = false := by
  simp only [isSpaceChar, Bool.or_eq_true, beq_iff_eq] at h
  rcases h with ((((h | h) | h) | h) | h) | h <;> subst h <;> decide

theorem word_not_space {c : Char} (h : isWordChar c = true) :
    isSpaceChar c = false := by
  by_cases hs : isSpaceChar c = true
  · rw [space_not_word hs] at h; cases h
  · exact Bool.eq_false_iff.mpr hs

/-! Facts about `collapsePunctAux`. -/

theorem mem_collapsePunctAux {x : Char} :
    ∀ (l : List Char) (flag : Bool), x ∈ collapsePunctAux flag l →
      x = ' ' ∨ x ∈ l := by
  intro l
  induction l with
  | nil => intro flag h; cases h
  | cons c cs ih =>
    intro flag h
    simp only [collapsePunctAux] at h
    split at h
    · rcases List.mem_append.mp h with h1 | h1
      · left
        split at h1
        · cases h1
        · exact List.mem_singleton.mp h1
      · rcases ih true h1 with h2 | h2
        · left; exact h2
        · right; exact List.mem_cons_of_mem _ h2
    · rcases List.mem_cons.mp h with h1 | h1
      · right; rw [h1]; exact List.mem_cons_self _ _
      · rcases ih false h1 with h2 | h2
        · left; exact h2
        · right; exact List.mem_cons_of_mem _ h2

theorem collapsePunctAux_no_punct {x : Char} :
    ∀ (l : List Char) (flag : Bool), x ∈ collapsePunctAux flag l →
      isPunctChar x = false := by
  intro l
  induction l with
  | nil => intro flag h; cases h
  | cons c cs ih =>
    intro flag h
    simp only [collapsePunctAux] at h
    split at h
    · rcases List.mem_append.mp h with h1 | h1
      · have : x = ' ' := by
          split at h1
          · cases h1
          · exact List.mem_singleton.mp h1
        rw [this]; decide
      · exact ih true h1
    · rcases List.mem_cons.mp h with h1 | h1
      · next hc => rw [h1]; exact Bool.eq_false_iff.mpr hc
      · exact ih false h1

theorem collapsePunctAux_fixed :
    ∀ (l : List Char) (flag : Bool), (∀ x ∈ l, isPunctChar x = false) →
      collapsePunctAux flag l = l := by
  intro l
  induction l with
  | nil => intro flag _; rfl
  | cons c cs ih =>
    intro flag h
    have hc : isPunctChar c = false := h c (List.mem_cons_self _ _)
    simp only [collapsePunctAux, hc, Bool.false_eq_true, if_false]
    rw [ih false (fun x hx => h x (List.mem_cons_of_mem _ hx))]

theorem collapsePunctAux_length_le :
    ∀ (l : List Char) (flag : Bool),
      (collapsePunctAux flag l).length ≤ l.length := by
  intro l
  induction l with
  | nil => intro flag; exact Nat.le_refl _
  | cons c cs ih =>
    intro flag
    simp only [collapsePunctAux]
    split
    · rw [List.length_append, List.length_cons]
      have h1 : (if flag then ([] : List Char) else [' ']).length ≤ 1 := by
        split <;> simp
      have h2 := ih true
      omega
    · rw [List.length_cons, List.length_cons]
      exact Nat.succ_le_succ (ih false)

/-! Facts about `collapseWsAux`. -/

theorem mem_collapseWsAux {x : Char} :
    ∀ (l : List Char) (flag : Bool), x ∈ collapseWsAux flag l →
      x = ' ' ∨ x ∈ l := by
  intro l
  induction l with
  | nil => intro flag h; cases h
  | cons c cs ih =>
    intro flag h
    simp only [collapseWsAux] at h
    split at h
    · rcases List.mem_append.mp h with h1 | h1
      · left
        split at h1
        · cases h1
        · exact List.mem_singleton.mp h1
      · rcases ih true h1 with h2 | h2
        · left; exact h2
        · right; exact List.mem_cons_of_mem _ h2
    · rcases List.mem_cons.mp h with h1 | h1
      · right; rw [h1]; exact List.mem_cons_self _ _
      · rcases ih false h1 with h2 | h2
        · left; exact h2
        · right; exact List.mem_cons_of_mem _ h2

theorem collapseWsAux_space_only {x : Char} :
    ∀ (l : List Char) (flag : Bool), x ∈ collapseWsAux flag l →
      isSpaceChar x = true → x = ' ' := by
  intro l
  induction l with
  | nil => intro flag h; cases h
  | cons c cs ih =>
    intro flag h hx
    simp only [collapseWsAux] at h
    split at h
    · rcases List.mem_append.mp h with h1 | h1
      · split at h1
        · cases h1
        · exact List.mem_singleton.mp h1
      · exact ih true h1 hx
    · rcases List.mem_cons.mp h with h1 | h1
      · next hc => exact absurd (h1 ▸ hx) hc
      · exact ih false h1 hx

theorem collapseWsAux_length_le :
    ∀ (l : List Char) (flag : Bool),
      (collapseWsAux flag l).length ≤ l.length := by
  intro l
  induction l with
  | nil => intro flag; exact Nat.le_refl _
  | cons c cs ih =>
    intro flag
    simp only [collapseWsAux]
    split
    · rw [List.length_append, List.length_cons]
      have h1 : (if flag then ([] : List Char) else [' ']).length ≤ 1 := by
        split <;> simp
      have h2 := ih true
      omega
    · rw [List.length_cons, List.length_cons]
      exact Nat.succ_le_succ (ih false)

theorem collapseWsAux_true_head :
    ∀ (l : List Char) {x : Char} {xs : List Char},
      collapseWsAux true l = x :: xs → isSpaceChar x = false := by
  intro l
  induction l with
  | nil => intro x xs h; cases h
  | cons c cs ih =>
    intro x xs h
    simp only [collapseWsAux] at h
    split at h
    · rw [if_pos trivial, List.nil_append] at h
      exact ih h
    · next hc =>
      rw [List.cons.injEq] at h
      rw [← h.1]
      exact Bool.eq_false_iff.mpr hc

/-- Adjacent characters in a `collapseWsAux` output are never both
whitespace. -/
theorem collapseWsAux_chain :
    ∀ (l : List Char) (flag : Bool),
      List.Chain' (fun a b => ¬(isSpaceChar a = true ∧ isSpaceChar b = true))
        (collapseWsAux flag l) := by
  intro l
  induction l with
  | nil => intro flag; exact List.chain'_nil
  | cons c cs ih =>
    intro flag
    simp only [collapseWsAux]
    split
    · split
      · rw [List.nil_append]; exact ih true
      · rw [List.singleton_append]
        rw [List.chain'_cons']
        refine ⟨?_, ih true⟩
        intro y hy
        cases hh : collapseWsAux true cs with
        | nil => rw [hh] at hy; cases hy
        | cons z zs =>
          rw [hh] at hy
          simp only [List.head?_cons, Option.mem_def, Option.some.injEq] at hy
          intro hcon
          rw [← hy] at hcon
          rw [collapseWsAux_true_head cs hh] at hcon
          cases hcon.2
    · next hc =>
      rw [List.chain'_cons']
      refine ⟨?_, ih false⟩
      intro y _
      intro hcon
      rw [hcon.1] at hc
      exact hc rfl

/-- `collapseWs` is the identity on a string whose whitespace is already
collapsed: every whitespace character is `' '` and no two are adjacent. -/
theorem collapseWs_fixed :
    ∀ (l : List Char),
      (∀ x ∈ l, isSpaceChar x = true → x = ' ') →
      List.Chain' (fun a b => ¬(isSpaceChar a = true ∧ isSpaceChar b = true))
        l →
      collapseWs l = l := by
  intro l
  induction l with
  | nil => intro _ _; rfl
  | cons c cs ih =>
    intro honly hchain
    unfold collapseWs at *
    simp only [collapseWsAux]
    by_cases hc : isSpaceChar c = true
    · rw [if_pos hc, if_neg (by simp)]
      have hcspace : c = ' ' := honly c (List.mem_cons_self _ _) hc
      have htail : collapseWsAux true cs = cs := by
        cases cs with
        | nil => rfl
        | cons d ds =>
          have hd : isSpaceChar d = false := by
            have := (List.chain'_cons'.mp hchain).1 d (by simp)
            by_cases hdd : isSpaceChar d = true
            · exact absurd ⟨hc, hdd⟩ this
            · exact Bool.eq_false_iff.mpr hdd
          have hrec : collapseWsAux false (d :: ds) = d :: ds :=
            ih (fun x hx => honly x (List.mem_cons_of_mem _ hx))
              (List.chain'_cons'.mp hchain).2
          simp only [collapseWsAux, hd, Bool.false_eq_true, if_false] at hrec ⊢
          exact hrec
      rw [htail, List.singleton_append, hcspace]
    · rw [if_neg hc]
      rw [ih (fun x hx => honly x (List.mem_cons_of_mem _ hx))
        (List.chain'_cons'.mp hchain).2]

/-! Facts about `stripTokensAux` and `wordRuns`. -/

theorem mem_flushRun {x : Char} {r : List Char} (h : x ∈ flushRun r) :
    x = ' ' ∨ x ∈ r := by
  unfold flushRun at h
  split at h
  · cases h
  · split at h
    · left; exact List.mem_singleton.mp h
    · right; exact h

theorem flushRun_length_le (r : List Char) : (flushRun r).length ≤ r.length := by
  unfold flushRun
  split
  · next h => rw [h]
  · next hne =>
    split
    · cases r with
      | nil => exact absurd rfl hne
      | cons a as => simp
    · exact Nat.le_refl _

theorem mem_stripTokensAux {x : Char} :
    ∀ (l acc : List Char), x ∈ stripTokensAux acc l →
      x = ' ' ∨ x ∈ acc ∨ x ∈ l := by
  intro l
  induction l with
  | nil =>
    intro acc h
    simp only [stripTokensAux] at h
    rcases mem_flushRun h with h1 | h1
    · left; exact h1
    · right; left; exact h1
  | cons c cs ih =>
    intro acc h
    simp only [stripTokensAux] at h
    split at h
    · rcases ih (acc ++ [c]) h with h1 | h1 | h1
      · left; exact h1
      · rcases List.mem_append.mp h1 with h2 | h2
        · right; left; exact h2
        · right; right
          rw [List.mem_singleton.mp h2]
          exact List.mem_cons_self _ _
      · right; right; exact List.mem_cons_of_mem _ h1
    · rcases List.mem_append.mp h with h1 | h1
      · rcases mem_flushRun h1 with h2 | h2
        · left; exact h2
        · right; left; exact h2
      · rcases List.mem_cons.mp h1 with h2 | h2
        · right; right; rw [h2]; exact List.mem_cons_self _ _
        · rcases ih [] h2 with h3 | h3 | h3
          · left; exact h3
          · cases h3
          · right; right; exact List.mem_cons_of_mem _ h3

theorem stripTokensAux_length_le :
    ∀ (l acc : List Char),
      (stripTokensAux acc l).length ≤ acc.length + l.length := by
  intro l
  induction l with
  | nil =>
    intro acc
    simp only [stripTokensAux, List.length_nil]
    exact le_trans (flushRun_length_le acc) (by omega)
  | cons c cs ih =>
    intro acc
    simp only [stripTokensAux]
    split
    · have h := ih (acc ++ [c])
      simp only [List.length_append, List.length_cons, List.length_nil] at h ⊢
      omega
    · have h1 := flushRun_length_le acc
      have h2 := ih []
      simp only [List.length_append, List.length_cons, List.length_nil] at h2 ⊢
      omega

/-- Run-splitting unfolding of `stripTokensAux`. -/
theorem stripTokensAux_eq :
    ∀ (l acc : List Char),
      stripTokensAux acc l =
        flushRun (acc ++ l.takeWhile isWordChar) ++
          stripTail (l.dropWhile isWordChar) := by
  intro l
  induction l with
  | nil =>
    intro acc
    simp [stripTokensAux, stripTail]
  | cons c cs ih =>
    intro acc
    by_cases hc : isWordChar c = true
    · rw [List.takeWhile_cons_of_pos hc, List.dropWhile_cons_of_pos hc]
      simp only [stripTokensAux, hc, if_true]
      rw [ih (acc ++ [c])]
      rw [List.append_assoc, List.singleton_append]
    · rw [List.takeWhile_cons_of_neg (by simp [hc]),
        List.dropWhile_cons_of_neg (by simp [hc])]
      simp only [stripTokensAux, hc, Bool.false_eq_true, if_false]
      rw [List.append_nil, stripTail]

theorem strip_cons_not_word {c : Char} {cs : List Char}
    (h : isWordChar c = false) :
    stripSuffixTokens (c :: cs) = c :: stripSuffixTokens cs := by
  unfold stripSuffixTokens
  simp only [stripTokensAux, h, Bool.false_eq_true, if_false]
  simp [flushRun]

theorem strip_cons_word {c : Char} {cs : List Char}
    (h : isWordChar c = true) :
    stripSuffixTokens (c :: cs) =
      flushRun ((c :: cs).takeWhile isWordChar) ++
        stripTail ((c :: cs).dropWhile isWordChar) := by
  unfold stripSuffixTokens
  rw [stripTokensAux_eq, List.nil_append]

/-- Run-splitting unfolding of `wordRunsAux`. -/
theorem wordRunsAux_eq :
    ∀ (l acc : List Char),
      wordRunsAux acc l =
        (if acc ++ l.takeWhile isWordChar = [] then []
         else [acc ++ l.takeWhile isWordChar]) ++
          wordRunsTail (l.dropWhile isWordChar) := by
  intro l
  induction l with
  | nil =>
    intro acc
    simp [wordRunsAux, wordRunsTail]
  | cons c cs ih =>
    intro acc
    by_cases hc : isWordChar c = true
    · rw [List.takeWhile_cons_of_pos hc, List.dropWhile_cons_of_pos hc]
      simp only [wordRunsAux, hc, if_true]
      rw [ih (acc ++ [c])]
      rw [List.append_assoc, List.singleton_append]
    · rw [List.takeWhile_cons_of_neg (by simp [hc]),
        List.dropWhile_cons_of_neg (by simp [hc])]
      simp only [wordRunsAux, hc, Bool.false_eq_true, if_false]
      rw [List.append_nil, wordRunsTail]

theorem wordRuns_cons_not_word {c : Char} {cs : List Char}
    (h : isWordChar c = false) : wordRuns (c :: cs) = wordRuns cs := by
  unfold wordRuns
  simp only [wordRunsAux, h, Bool.false_eq_true, if_false]
  simp

theorem wordRunsTail_eq_wordRuns :
    ∀ {X : List Char},
      (X = [] ∨ ∃ d ds, X = d :: ds ∧ isWordChar d = false) →
      wordRunsTail X = wordRuns X := by
  intro X h
  rcases h with h | ⟨d, ds, h1, h2⟩
  · rw [h]; rfl
  · rw [h1]
    show wordRunsAux [] ds = wordRuns (d :: ds)
    rw [wordRuns_cons_not_word h2]
    rfl

/-- Shape of the `dropWhile isWordChar` tail: empty or non-word-headed. -/
theorem dropWhile_word_shape (l : List Char) :
    l.dropWhile isWordChar = [] ∨
      ∃ d ds, l.dropWhile isWordChar = d :: ds ∧ isWordChar d = false := by
  cases hX : l.dropWhile isWordChar with
  | nil => left; rfl
  | cons d ds => right; exact ⟨d, ds, rfl, dropWhile_head_false _ hX⟩

theorem wordRuns_cons_word {c : Char} {cs : List Char}
    (h : isWordChar c = true) :
    wordRuns (c :: cs) =
      (c :: cs).takeWhile isWordChar ::
        wordRuns ((c :: cs).dropWhile isWordChar) := by
  show wordRunsAux [] (c :: cs) = _
  rw [wordRunsAux_eq, List.nil_append,
    wordRunsTail_eq_wordRuns (dropWhile_word_shape (c :: cs))]
  rw [List.takeWhile_cons_of_pos h, if_neg (by simp), List.singleton_append]

/-- `takeWhile`/`dropWhile isWordChar` of an all-word run followed by a
non-word-headed tail. -/
theorem word_run_split :
    ∀ (run X : List Char), (∀ x ∈ run, isWordChar x = true) →
      (∀ d ds, X = d :: ds → isWordChar d = false) →
      (run ++ X).takeWhile isWordChar = run ∧
        (run ++ X).dropWhile isWordChar = X := by
  intro run
  induction run with
  | nil =>
    intro X _ hX
    rw [List.nil_append]
    cases X with
    | nil => exact ⟨rfl, rfl⟩
    | cons d ds =>
      have hd : isWordChar d = false := hX d ds rfl
      exact ⟨List.takeWhile_cons_of_neg (by simp [hd]),
        List.dropWhile_cons_of_neg (by simp [hd])⟩
  | cons r rs ih =>
    intro X hrun hX
    have hr : isWordChar r = true := hrun r (List.mem_cons_self _ _)
    rw [List.cons_append, List.takeWhile_cons_of_pos hr,
      List.dropWhile_cons_of_pos hr]
    have := ih X (fun x hx => hrun x (List.mem_cons_of_mem _ hx)) hX
    exact ⟨by rw [this.1], this.2⟩

theorem wordRuns_word_append {run X : List Char}
    (hne : run ≠ []) (hrun : ∀ x ∈ run, isWordChar x = true)
    (hX : ∀ d ds, X = d :: ds → isWordChar d = false) :
    wordRuns (run ++ X) = run :: wordRuns X := by
  cases run with
  | nil => exact absurd rfl hne
  | cons r rs =>
    have hr : isWordChar r = true := hrun r (List.mem_cons_self _ _)
    rw [List.cons_append, wordRuns_cons_word hr, ← List.cons_append,
      (word_run_split (r :: rs) X hrun hX).1,
      (word_run_split (r :: rs) X hrun hX).2]

theorem wordRuns_nil_of_all_not_word :
    ∀ {l : List Char}, (∀ x ∈ l, isWordChar x = false) → wordRuns l = [] := by
  intro l
  induction l with
  | nil => intro _; rfl
  | cons c cs ih =>
    intro h
    rw [wordRuns_cons_not_word (h c (List.mem_cons_self _ _))]
    exact ih (fun x hx => h x (List.mem_cons_of_mem _ hx))

theorem noTokenRuns_nil : noTokenRuns [] := by
  intro r hr
  simp [wordRuns, wordRunsAux] at hr

/-- Every maximal word run of a `stripSuffixTokens` output avoids the
suffix tokens: the replacement leaves nothing for the regex to match. -/
theorem noTokenRuns_strip :
    ∀ (n : Nat) (l : List Char), l.length ≤ n →
      noTokenRuns (stripSuffixTokens l) := by
  intro n
  induction n with
  | zero =>
    intro l hl
    rw [List.length_eq_zero.mp (Nat.le_zero.mp hl)]
    exact noTokenRuns_nil
  | succ n ih =>
    intro l hl
    cases l with
    | nil => exact noTokenRuns_nil
    | cons c cs =>
      have hcs : cs.length ≤ n := by
        simp only [List.length_cons] at hl
        omega
      by_cases hword : isWordChar c = true
      · rw [strip_cons_word hword]
        have hrun_ne : (c :: cs).takeWhile isWordChar ≠ [] := by
          rw [List.takeWhile_cons_of_pos hword]
          exact List.cons_ne_nil _ _
        have hrun_word : ∀ x ∈ (c :: cs).takeWhile isWordChar,
            isWordChar x = true := fun x hx => List.mem_takeWhile_imp hx
        have hrest_len : ((c :: cs).dropWhile isWordChar).length ≤ n := by
          rw [List.dropWhile_cons_of_pos hword]
          exact le_trans (dropWhile_length_le _ _) hcs
        have htail : ∀ (rest : List Char), rest.length ≤ n →
            (∀ d ds, rest = d :: ds → isWordChar d = false) →
            noTokenRuns (stripTail rest) ∧
            (∀ d ds, stripTail rest = d :: ds → isWordChar d = false) := by
          intro rest hrl hshape
          cases rest with
          | nil => exact ⟨noTokenRuns_nil, fun d ds h => by cases h⟩
          | cons d ds =>
            have hd : isWordChar d = false := hshape d ds rfl
            have hds : ds.length ≤ n := by
              simp only [List.length_cons] at hrl
              omega
            constructor
            · show noTokenRuns (d :: stripTokensAux [] ds)
              intro r hr
              rw [wordRuns_cons_not_word hd] at hr
              exact ih ds hds r hr
            · intro d' ds' h
              rw [show stripTail (d :: ds) = d :: stripTokensAux [] ds
                from rfl] at h
              rw [List.cons.injEq] at h
              rw [← h.1]
              exact hd
        have hsh : ∀ d ds, (c :: cs).dropWhile isWordChar = d :: ds →
            isWordChar d = false := fun d ds h => dropWhile_head_false _ h
        rcases htail ((c :: cs).dropWhile isWordChar) hrest_len hsh with
          ⟨htail1, htail2⟩
        unfold flushRun
        rw [if_neg hrun_ne]
        split
        · -- token run replaced by a space
          intro r hr
          rw [List.singleton_append,
            wordRuns_cons_not_word (by decide : isWordChar ' ' = false)] at hr
          exact htail1 r hr
        · -- run kept unchanged
          next hnotmem =>
          intro r hr
          rw [wordRuns_word_append hrun_ne hrun_word htail2] at hr
          rcases List.mem_cons.mp hr with h1 | h1
          · rw [h1]; exact hnotmem
          · exact htail1 r h1
      · rw [strip_cons_not_word (Bool.eq_false_iff.mpr hword)]
        intro r hr
        rw [wordRuns_cons_not_word (Bool.eq_false_iff.mpr hword)] at hr
        exact ih cs hcs r hr

/-- `stripSuffixTokens` is the identity on a string none of whose word
runs is a suffix token. -/
theorem strip_fixed :
    ∀ (n : Nat) (l : List Char), l.length ≤ n → noTokenRuns l →
      stripSuffixTokens l = l := by
  intro n
  induction n with
  | zero =>
    intro l hl _
    rw [List.length_eq_zero.mp (Nat.le_zero.mp hl)]
    rfl
  | succ n ih =>
    intro l hl hruns
    cases l with
    | nil => rfl
    | cons c cs =>
      have hcs : cs.length ≤ n := by
        simp only [List.length_cons] at hl
        omega
      by_cases hword : isWordChar c = true
      · rw [strip_cons_word hword]
        have hrun_ne : (c :: cs).takeWhile isWordChar ≠ [] := by
          rw [List.takeWhile_cons_of_pos hword]
          exact List.cons_ne_nil _ _
        have hsplit := @wordRuns_cons_word c cs hword
        have hnotmem : (c :: cs).takeWhile isWordChar ∉ suffixTokens := by
          apply hruns
          rw [hsplit]
          exact List.mem_cons_self _ _
        unfold flushRun
        rw [if_neg hrun_ne, if_neg hnotmem]
        cases hrest : (c :: cs).dropWhile isWordChar with
        | nil =>
          show (c :: cs).takeWhile isWordChar ++ stripTail [] = c :: cs
          rw [show stripTail [] = [] from rfl, List.append_nil]
          have := List.takeWhile_append_dropWhile isWordChar (c :: cs)
          rw [hrest, List.append_nil] at this
          exact this
        | cons d ds =>
          have hd : isWordChar d = false := dropWhile_head_false _ hrest
          have hds : ds.length ≤ n := by
            have h1 : (d :: ds).length ≤ cs.length := by
              rw [← hrest, List.dropWhile_cons_of_pos hword]
              exact dropWhile_length_le _ _
            simp only [List.length_cons] at h1
            omega
          have hnds : noTokenRuns ds := by
            intro r hr
            apply hruns
            rw [hsplit, hrest, wordRuns_cons_not_word hd]
            exact List.mem_cons_of_mem _ hr
          show (c :: cs).takeWhile isWordChar ++
            (d :: stripTokensAux [] ds) = c :: cs
          rw [show stripTokensAux [] ds = stripSuffixTokens ds from rfl,
            ih ds hds hnds]
          have := List.takeWhile_append_dropWhile isWordChar (c :: cs)
          rw [hrest] at this
          exact this
      · have hw : isWordChar c = false := Bool.eq_false_iff.mpr hword
        rw [strip_cons_not_word hw]
        have hncs : noTokenRuns cs := by
          intro r hr
          apply hruns
          rw [wordRuns_cons_not_word hw]
          exact hr
        rw [ih cs hcs hncs]

theorem wordRuns_dropWhile_space (l : List Char) :
    wordRuns (l.dropWhile isSpaceChar) = wordRuns l := by
  induction l with
  | nil => rfl
  | cons c cs ih =>
    by_cases hc : isSpaceChar c = true
    · rw [List.dropWhile_cons_of_pos hc, ih,
        wordRuns_cons_not_word (space_not_word hc)]
    · rw [List.dropWhile_cons_of_neg (by simp [hc])]

/-- `collapseWsAux false` commutes with splitting off the leading word
run: it touches only whitespace, which is never a word character. -/
theorem collapseWsAux_false_word_split (l : List Char) :
    (collapseWsAux false l).takeWhile isWordChar = l.takeWhile isWordChar ∧
    (collapseWsAux false l).dropWhile isWordChar =
      collapseWsAux false (l.dropWhile isWordChar) := by
  induction l with
  | nil => exact ⟨rfl, rfl⟩
  | cons c cs ih =>
    by_cases hw : isWordChar c = true
    · have hs : isSpaceChar c = false := word_not_space hw
      simp only [collapseWsAux, hs, Bool.false_eq_true, if_false]
      rw [List.takeWhile_cons_of_pos hw, List.takeWhile_cons_of_pos hw,
        List.dropWhile_cons_of_pos hw, List.dropWhile_cons_of_pos hw]
      exact ⟨by rw [ih.1], ih.2⟩
    · have hwf : isWordChar c = false := Bool.eq_false_iff.mpr hw
      by_cases hs : isSpaceChar c = true
      · simp only [collapseWsAux, hs, if_true]
        rw [if_neg (by simp), List.singleton_append]
        have hsp : isWordChar ' ' = false := by decide
        constructor
        · rw [List.takeWhile_cons_of_neg (by simp [hsp]),
            List.takeWhile_cons_of_neg (by simp [hwf])]
        · rw [List.dropWhile_cons_of_neg (by simp [hsp]),
            List.dropWhile_cons_of_neg (by simp [hwf])]
          simp only [collapseWsAux, hs, if_true]
          rw [if_neg (by simp), List.singleton_append]
      · simp only [collapseWsAux, hs, Bool.false_eq_true, if_false]
        constructor
        · rw [List.takeWhile_cons_of_neg (by simp [hwf]),
            List.takeWhile_cons_of_neg (by simp [hwf])]
        · rw [List.dropWhile_cons_of_neg (by simp [hwf]),
            List.dropWhile_cons_of_neg (by simp [hwf])]
          simp only [collapseWsAux, hs, Bool.false_eq_true, if_false]

/-- Collapsing whitespace does not change the word runs. -/
theorem wordRuns_collapseWsAux :
    ∀ (n : Nat) (l : List Char), l.length ≤ n → ∀ (flag : Bool),
      wordRuns (collapseWsAux flag l) = wordRuns l := by
  intro n
  induction n with
  | zero =>
    intro l hl flag
    rw [List.length_eq_zero.mp (Nat.le_zero.mp hl)]
    rfl
  | succ n ih =>
    intro l hl flag
    cases l with
    | nil => rfl
    | cons c cs =>
      have hcs : cs.length ≤ n := by
        simp only [List.length_cons] at hl
        omega
      by_cases hs : isSpaceChar c = true
      · have hcw : isWordChar c = false := space_not_word hs
        simp only [collapseWsAux, hs, if_true]
        rw [wordRuns_cons_not_word hcw]
        by_cases hflag : flag = true
        · rw [hflag, if_pos rfl, List.nil_append]
          exact ih cs hcs true
        · rw [if_neg (by simp [hflag]), List.singleton_append,
            wordRuns_cons_not_word (by decide : isWordChar ' ' = false)]
          exact ih cs hcs true
      · simp only [collapseWsAux, hs, Bool.false_eq_true, if_false]
        by_cases hw : isWordChar c = true
        · rw [wordRuns_cons_word hw, wordRuns_cons_word hw]
          have hsplit := collapseWsAux_false_word_split cs
          rw [List.takeWhile_cons_of_pos hw, List.takeWhile_cons_of_pos hw,
            List.dropWhile_cons_of_pos hw, List.dropWhile_cons_of_pos hw,
            hsplit.1, hsplit.2]
          rw [ih (cs.dropWhile isWordChar)
            (le_trans (dropWhile_length_le _ _) hcs) false]
        · have hwf : isWordChar c = false := Bool.eq_false_iff.mpr hw
          rw [wordRuns_cons_not_word hwf, wordRuns_cons_not_word hwf]
          exact ih cs hcs false

/-- `dropTrailingWs` commutes with splitting off the leading word run. -/
theorem dropTrailingWs_word_split (l : List Char) :
    (dropTrailingWs l).takeWhile isWordChar = l.takeWhile isWordChar ∧
    (dropTrailingWs l).dropWhile isWordChar =
      dropTrailingWs (l.dropWhile isWordChar) := by
  induction l with
  | nil => exact ⟨rfl, rfl⟩
  | cons c cs ih =>
    rw [dropTrailingWs_cons]
    by_cases hw : isWordChar c = true
    · have hs : isSpaceChar c = false := word_not_space hw
      by_cases h0 : dropTrailingWs cs = []
      · rw [if_pos h0, if_neg (by simp [hs])]
        have hcs : ∀ x ∈ cs, isSpaceChar x = true :=
          (dropTrailingWs_nil_iff cs).mp h0
        constructor
        · rw [List.takeWhile_cons_of_pos hw, List.takeWhile_cons_of_pos hw]
          cases cs with
          | nil => rfl
          | cons d ds =>
            have hd : isWordChar d = false :=
              space_not_word (hcs d (List.mem_cons_self _ _))
            rw [List.takeWhile_cons_of_neg (by simp [hd])]
            rfl
        · rw [List.dropWhile_cons_of_pos hw, List.dropWhile_cons_of_pos hw]
          cases cs with
          | nil => rfl
          | cons d ds =>
            have hd : isWordChar d = false :=
              space_not_word (hcs d (List.mem_cons_self _ _))
            rw [List.dropWhile_cons_of_neg (by simp [hd]), h0]
            rfl
      · rw [if_neg h0]
        constructor
        · rw [List.takeWhile_cons_of_pos hw, List.takeWhile_cons_of_pos hw,
            ih.1]
        · rw [List.dropWhile_cons_of_pos hw, List.dropWhile_cons_of_pos hw,
            ih.2]
    · have hwf : isWordChar c = false := Bool.eq_false_iff.mpr hw
      by_cases h0 : dropTrailingWs cs = []
      · rw [if_pos h0]
        by_cases hs : isSpaceChar c = true
        · rw [if_pos hs]
          constructor
          · rw [List.takeWhile_cons_of_neg (by simp [hwf])]
            rfl
          · rw [List.dropWhile_cons_of_neg (by simp [hwf]),
              dropTrailingWs_cons, if_pos h0, if_pos hs]
            rfl
        · rw [if_neg hs]
          constructor
          · rw [List.takeWhile_cons_of_neg (by simp [hwf]),
              List.takeWhile_cons_of_neg (by simp [hwf])]
          · rw [List.dropWhile_cons_of_neg (by simp [hwf]),
              List.dropWhile_cons_of_neg (by simp [hwf]),
              dropTrailingWs_cons, if_pos h0, if_neg hs]
      · rw [if_neg h0]
        constructor
        · rw [List.takeWhile_cons_of_neg (by simp [hwf]),
            List.takeWhile_cons_of_neg (by simp [hwf])]
        · rw [List.dropWhile_cons_of_neg (by simp [hwf]),
            List.dropWhile_cons_of_neg (by simp [hwf]),
            dropTrailingWs_cons, if_neg h0]

/-- Removing trailing whitespace does not change the word runs. -/
theorem wordRuns_dropTrailingWs :
    ∀ (n : Nat) (l : List Char), l.length ≤ n →
      wordRuns (dropTrailingWs l) = wordRuns l := by
  intro n
  induction n with
  | zero =>
    intro l hl
    rw [List.length_eq_zero.mp (Nat.le_zero.mp hl)]
    rfl
  | succ n ih =>
    intro l hl
    cases l with
    | nil => rfl
    | cons c cs =>
      have hcs : cs.length ≤ n := by
        simp only [List.length_cons] at hl
        omega
      by_cases hw : isWordChar c = true
      · cases hX : dropTrailingWs (c :: cs) with
        | nil =>
          have hall := (dropTrailingWs_nil_iff (c :: cs)).mp hX
          have := space_not_word (hall c (List.mem_cons_self _ _))
          rw [hw] at this
          cases this
        | cons x xs =>
          rcases dropTrailingWs_head hX with ⟨ys, hys⟩
          have hx : x = c := by
            rw [List.cons.injEq] at hys
            exact hys.1.symm
          rw [hx] at hX
          have hsplit := dropTrailingWs_word_split (c :: cs)
          rw [hX] at hsplit
          have hlen : ((c :: cs).dropWhile isWordChar).length ≤ n := by
            rw [List.dropWhile_cons_of_pos hw]
            exact le_trans (dropWhile_length_le _ _) hcs
          rw [hx, wordRuns_cons_word hw, hsplit.1, hsplit.2,
            ih ((c :: cs).dropWhile isWordChar) hlen,
            ← wordRuns_cons_word hw]
      · have hwf : isWordChar c = false := Bool.eq_false_iff.mpr hw
        rw [dropTrailingWs_cons]
        by_cases h0 : dropTrailingWs cs = []
        · rw [if_pos h0]
          have hall : ∀ x ∈ cs, isSpaceChar x = true :=
            (dropTrailingWs_nil_iff cs).mp h0
          have hnw : wordRuns cs = [] :=
            wordRuns_nil_of_all_not_word
              (fun x hx => space_not_word (hall x hx))
          rw [wordRuns_cons_not_word hwf, hnw]
          split
          · rfl
          · rw [wordRuns_cons_not_word hwf]
            rfl
        · rw [if_neg h0, wordRuns_cons_not_word hwf,
            wordRuns_cons_not_word hwf]
          exact ih cs hcs

theorem wordRuns_trimWs (l : List Char) : wordRuns (trimWs l) = wordRuns l := by
  unfold trimWs
  rw [wordRuns_dropTrailingWs (l.dropWhile isSpaceChar).length _ (Nat.le_refl _),
    wordRuns_dropWhile_space]

theorem chain'_dropWhile {R : Char → Char → Prop} (q : Char → Bool)
    {l : List Char} (h : List.Chain' R l) : List.Chain' R (l.dropWhile q) := by
  induction l with
  | nil => exact h
  | cons c cs ih =>
    by_cases hq : q c = true
    · rw [List.dropWhile_cons_of_pos hq]
      exact ih (List.chain'_cons'.mp h).2
    · rwa [List.dropWhile_cons_of_neg (by simp [hq])]

theorem chain'_dropTrailingWs {R : Char → Char → Prop} {l : List Char}
    (h : List.Chain' R l) : List.Chain' R (dropTrailingWs l) := by
  induction l with
  | nil => exact h
  | cons c cs ih =>
    rw [dropTrailingWs_cons]
    split
    · split
      · exact List.chain'_nil
      · exact List.chain'_singleton _
    · rw [List.chain'_cons']
      refine ⟨?_, ih (List.chain'_cons'.mp h).2⟩
      intro y hy
      cases hX : dropTrailingWs cs with
      | nil => rw [hX] at hy; cases hy
      | cons x xs =>
        rw [hX] at hy
        simp only [List.head?_cons, Option.mem_def, Option.some.injEq] at hy
        rcases dropTrailingWs_head hX with ⟨ys, hys⟩
        subst hy
        have h1 := (List.chain'_cons'.mp h).1
        rw [hys] at h1
        exact h1 x (by simp)

theorem map_fixed {f : Char → Char} :
    ∀ {l : List Char}, (∀ x ∈ l, f x = x) → l.map f = l := by
  intro l
  induction l with
  | nil => intro _; rfl
  | cons c cs ih =>
    intro h
    rw [List.map_cons, h c (List.mem_cons_self _ _),
      ih (fun x hx => h x (List.mem_cons_of_mem _ hx))]

/-- Unfolding of `normalizeMerchantText` with the let-bindings inlined. -/
theorem normalizeMerchantText_unfold (l : List Char) :
    normalizeMerchantText l =
      if jsLowerCase (sanitizePlainText l 200) = [] then []
      else trimWs (collapseWs (stripSuffixTokens (collapsePunct
        (jsLowerCase (sanitizePlainText l 200))))) := rfl

set_option maxRecDepth 20000 in
/-- C7 counterexample: the Normalizer is not idempotent on every string.
`sanitizePlainText` slices to 200 UTF-16 units before `toLowerCase`, and
`toLowerCase` maps U+0130 to the two units `i` + U+0307, so 101 copies of
U+0130 normalize to a 202-unit string whose renormalization is truncated
to 200 units. -/
theorem normalizeMerchant_dottedI_not_idempotent :
    normalizeMerchantText (normalizeMerchantText
        (List.replicate 101 dottedI)) ≠
      normalizeMerchantText (List.replicate 101 dottedI) := by
  decide

/-- C7 (corrected): the Normalizer is idempotent on every string that does
not contain U+0130 — the sole code point whose `toLowerCase` image is
longer than itself, which interacts with the slice-to-200-before-lowercase
order — and empty or whitespace-only input yields the empty string. -/
theorem normalizeMerchantText_idempotent :
    (∀ l : List Char, dottedI ∉ l →
      normalizeMerchantText (normalizeMerchantText l) =
        normalizeMerchantText l) ∧
    (∀ l : List Char, (∀ c ∈ l, isSpaceChar c = true) →
      normalizeMerchantText l = []) := by
  have hempty : ∀ l : List Char, (∀ c ∈ l, isSpaceChar c = true) →
      normalizeMerchantText l = [] := by
    intro l h
    rw [normalizeMerchantText_unfold]
    rw [show sanitizePlainText l 200 = [] from by
      unfold sanitizePlainText
      rw [trimWs_nil_of_all h]
      rfl]
    rfl
  refine ⟨?_, hempty⟩
  intro l hdl
  rw [normalizeMerchantText_unfold l]
  by_cases h0 : jsLowerCase (sanitizePlainText l 200) = []
  · rw [if_pos h0]
    rfl
  · rw [if_neg h0]
    set n := jsLowerCase (sanitizePlainText l 200) with hn
    set B := trimWs (collapseWs (stripSuffixTokens (collapsePunct n))) with hB
    have hsanI : dottedI ∉ sanitizePlainText l 200 := by
      intro hx
      exact hdl (mem_trimWs (List.take_subset _ _ hx))
    have hneq : n = (sanitizePlainText l 200).map jsToLower := by
      rw [hn]
      exact jsLowerCase_eq_map _ hsanI
    have hfix : ∀ x ∈ n, jsToLower x = x := by
      intro x hx
      rw [hneq] at hx
      rcases List.mem_map.mp hx with ⟨y, _, hy⟩
      rw [← hy, jsToLower_idem]
    have hnI : dottedI ∉ n := by
      intro hx
      rw [hneq] at hx
      rcases List.mem_map.mp hx with ⟨y, hymem, hy⟩
      exact jsToLower_ne_dottedI (fun he => hsanI (he ▸ hymem)) hy
    have hBsub : ∀ x ∈ B, x = ' ' ∨ x ∈ n := by
      intro x hx
      rw [hB] at hx
      have h1 := mem_trimWs hx
      rcases mem_collapseWsAux _ false h1 with h2 | h2
      · left; exact h2
      · rcases mem_stripTokensAux _ [] h2 with h3 | h3 | h3
        · left; exact h3
        · cases h3
        · rcases mem_collapsePunctAux _ false h3 with h4 | h4
          · left; exact h4
          · right; exact h4
    have hBfix : ∀ x ∈ B, jsToLower x = x := by
      intro x hx
      rcases hBsub x hx with h1 | h1
      · rw [h1]; decide
      · exact hfix x h1
    have hBnopunct : ∀ x ∈ B, isPunctChar x = false := by
      intro x hx
      rw [hB] at hx
      have h1 := mem_trimWs hx
      rcases mem_collapseWsAux _ false h1 with h2 | h2
      · rw [h2]; decide
      · rcases mem_stripTokensAux _ [] h2 with h3 | h3 | h3
        · rw [h3]; decide
        · cases h3
        · exact collapsePunctAux_no_punct _ false h3
    have hn200 : n.length ≤ 200 := by
      rw [hneq, List.length_map]
      unfold sanitizePlainText
      rw [List.length_take]
      exact min_le_left _ _
    have hBlen : B.length ≤ 200 := by
      rw [hB]
      calc (trimWs (collapseWs (stripSuffixTokens (collapsePunct n)))).length
          ≤ (collapseWs (stripSuffixTokens (collapsePunct n))).length :=
            trimWs_length_le _
        _ ≤ (stripSuffixTokens (collapsePunct n)).length :=
            collapseWsAux_length_le _ false
        _ ≤ (collapsePunct n).length := by
            simpa using stripTokensAux_length_le (collapsePunct n) []
        _ ≤ n.length := collapsePunctAux_length_le n false
        _ ≤ 200 := hn200
    have hBspace : ∀ x ∈ B, isSpaceChar x = true → x = ' ' := by
      intro x hx
      rw [hB] at hx
      exact collapseWsAux_space_only _ false (mem_trimWs hx)
    have hBchain : List.Chain'
        (fun a b => ¬(isSpaceChar a = true ∧ isSpaceChar b = true)) B := by
      rw [hB]
      unfold trimWs
      exact chain'_dropTrailingWs
        (chain'_dropWhile _ (collapseWsAux_chain _ false))
    have hBruns : noTokenRuns B := by
      intro r hr
      rw [hB, wordRuns_trimWs] at hr
      rw [show collapseWs (stripSuffixTokens (collapsePunct n)) =
          collapseWsAux false (stripSuffixTokens (collapsePunct n)) from
        rfl] at hr
      rw [wordRuns_collapseWsAux
        (stripSuffixTokens (collapsePunct n)).length _ (Nat.le_refl _)
        false] at hr
      exact noTokenRuns_strip (collapsePunct n).length (collapsePunct n)
        (Nat.le_refl _) r hr
    have hBtrim : trimWs B = B := by
      rw [hB, trimWs_idem]
    have hBnoI : dottedI ∉ B := by
      intro hx
      rcases hBsub _ hx with h1 | h1
      · exact absurd h1 (by decide)
      · exact hnI h1
    rw [normalizeMerchantText_unfold B]
    have hsanB : sanitizePlainText B 200 = B := by
      unfold sanitizePlainText
      rw [hBtrim]
      exact List.take_of_length_le hBlen
    have hmapB : jsLowerCase B = B := by
      rw [jsLowerCase_eq_map B hBnoI]
      exact map_fixed hBfix
    rw [hsanB, hmapB]
    by_cases hBnil : B = []
    · rw [if_pos hBnil, hBnil]
    · rw [if_neg hBnil]
      rw [show collapsePunct B = B from collapsePunctAux_fixed B false hBnopunct]
      rw [strip_fixed B.length B (Nat.le_refl _) hBruns]
      rw [collapseWs_fixed B hBspace hBchain]
      exact hBtrim

/-- C7 witness: a concrete U+0130-free merchant string is a fixed point of
renormalization, and whitespace-only input normalizes to the empty
string. -/
theorem normalizeMerchantText_idempotent_witness :
    (dottedI ∉ chars "  Swiggy Pvt. Ltd!  " ∧
      normalizeMerchantText (normalizeMerchantText
          (chars "  Swiggy Pvt. Ltd!  ")) =
        normalizeMerchantText (chars "  Swiggy Pvt. Ltd!  ")) ∧
    ((∀ c ∈ chars "   ", isSpaceChar c = true) ∧
      normalizeMerchantText (chars "   ") = []) :=
  ⟨⟨by decide, normalizeMerchantText_idempotent.1 _ (by decide)⟩,
   ⟨by decide, normalizeMerchantText_idempotent.2 _ (by decide)⟩⟩

end Fynix
